import Mathlib

/-!
Verification of the sourcerer RAG core: a shallow embedding of
`backend/chat/truncation.py`, `backend/rag/storage.py` and
`backend/rag/retrieval.py`, together with theorems settling the frozen
claims about them.

Conventions of the embedding:
* Python ints are `Nat`/`Int`; Python floats are `ℚ` (exact arithmetic);
  Python lists are `List`; Python dicts are association lists with
  first-match lookup and replace-or-append update (`dictGet`/`dictSet`).
* External collaborators (tiktoken tokenizer, LLM provider adapter,
  config) are parameters of a `TruncEnv` record; a `none` value models
  the collaborator raising an exception.
* Fallible code returns `Except`/`Option`, or a `state × Option error`
  pair when the caller observes the state left behind by a raise.
-/

namespace Sourcerer

/-! ## Kernel-computable rational arithmetic

The library's `Rat.add`, `Rat.mul`, `Rat.inv` are `@[irreducible]`, so closed
instances of the model could not be evaluated by `decide`.  The embedding
therefore uses the following `mkRat`-based operations, each proved equal to
the standard one, so every theorem can be read through the `_eq` lemmas as a
statement about ordinary `ℚ` arithmetic. -/

/-- `(n : ℚ)` for an integer, by kernel-computable means. -/
def intQ (n : Int) : ℚ := mkRat n 1

/-- `(n : ℚ)` for a natural number, by kernel-computable means. -/
def natQ (n : Nat) : ℚ := intQ n

/-- Rational addition, by kernel-computable means. -/
def qadd (a b : ℚ) : ℚ := mkRat (a.num * b.den + b.num * a.den) (a.den * b.den)

/-- Rational multiplication, by kernel-computable means. -/
def qmul (a b : ℚ) : ℚ := mkRat (a.num * b.num) (a.den * b.den)

/-- Rational inverse (`qinv 0 = 0`), by kernel-computable means. -/
def qinv (b : ℚ) : ℚ :=
  if b.num < 0 then mkRat (-(b.den : Int)) b.num.natAbs
  else mkRat (b.den : Int) b.num.natAbs

/-- Rational division, by kernel-computable means. -/
def qdiv (a b : ℚ) : ℚ := qmul a (qinv b)

theorem intQ_eq (n : Int) : intQ n = (n : ℚ) := by
  unfold intQ
  rw [Rat.mkRat_eq_div]
  norm_num

theorem natQ_eq (n : Nat) : natQ n = (n : ℚ) := by
  unfold natQ
  rw [intQ_eq]
  norm_num

theorem qadd_eq (a b : ℚ) : qadd a b = a + b := by
  unfold qadd
  rw [Rat.mkRat_eq_div]
  have ha : ((a.den : ℚ)) ≠ 0 := by exact_mod_cast a.den_nz
  have hb : ((b.den : ℚ)) ≠ 0 := by exact_mod_cast b.den_nz
  conv_rhs => rw [← Rat.num_div_den a, ← Rat.num_div_den b]
  rw [div_add_div _ _ ha hb]
  push_cast
  ring_nf

theorem qmul_eq (a b : ℚ) : qmul a b = a * b := by
  unfold qmul
  rw [Rat.mkRat_eq_div]
  conv_rhs => rw [← Rat.num_div_den a, ← Rat.num_div_den b]
  rw [div_mul_div_comm]
  push_cast
  ring_nf

theorem qinv_eq (b : ℚ) : qinv b = b⁻¹ := by
  unfold qinv
  rcases lt_trichotomy b.num 0 with h | h | h
  · rw [if_pos h, Rat.mkRat_eq_div]
    have hcast : ((b.num.natAbs : ℚ)) = -(b.num : ℚ) := by
      rw [Int.cast_natAbs]
      exact_mod_cast abs_of_neg h
    rw [hcast]
    conv_rhs => rw [← Rat.num_div_den b]
    rw [inv_div]
    push_cast
    rw [neg_div_neg_eq]
  · have hb : b = 0 := by
      have h2 := Rat.num_eq_zero (q := b)
      exact h2.mp h
    rw [if_neg (by omega), hb]
    rw [inv_zero]
    decide
  · rw [if_neg (by omega), Rat.mkRat_eq_div]
    have hcast : ((b.num.natAbs : ℚ)) = (b.num : ℚ) := by
      rw [Int.cast_natAbs]
      exact_mod_cast abs_of_pos h
    rw [hcast]
    conv_rhs => rw [← Rat.num_div_den b]
    rw [inv_div]
    norm_cast

theorem qdiv_eq (a b : ℚ) : qdiv a b = a / b := by
  unfold qdiv
  rw [qmul_eq, qinv_eq, div_eq_mul_inv]

/-- Linear search for an exact natural square root below the fuel bound. -/
def sqrtSearch (n : Nat) : Nat → Option Nat
  | 0 => if 0 = n then some 0 else none
  | k + 1 => if (k + 1) * (k + 1) = n then some (k + 1) else sqrtSearch n k

/-- The exact square root of `n`, when `n` is a perfect square. -/
def natSqrtExact (n : Nat) : Option Nat := sqrtSearch n n

theorem sqrtSearch_sq {n : Nat} : ∀ {k r : Nat}, sqrtSearch n k = some r → r * r = n := by
  intro k
  induction k with
  | zero =>
    intro r h
    unfold sqrtSearch at h
    by_cases h0 : 0 = n
    · rw [if_pos h0] at h
      cases h
      omega
    · rw [if_neg h0] at h
      cases h
  | succ k ih =>
    intro r h
    unfold sqrtSearch at h
    by_cases hk : (k + 1) * (k + 1) = n
    · rw [if_pos hk] at h
      cases h
      exact hk
    · rw [if_neg hk] at h
      exact ih h

/-! ## Chat messages (`backend/models/chat.py`) -/

/-- `MessageRole` enum from `models/chat.py`. -/
inductive MessageRole
  | system
  | user
  | assistant
deriving DecidableEq

/-- The `metadata` dict attached to a `ChatMessage`; the truncator only ever
writes `is_summary` and `summarized_count`, so the model carries exactly those
(with dict-absent defaults). -/
structure MsgMeta where
  is_summary : Bool := false
  summarized_count : Nat := 0
deriving DecidableEq

/-- `ChatMessage` from `models/chat.py`, restricted to the fields the
truncator reads or writes.  The `datetime` timestamp is abstracted to a `Nat`
tick; `fmtTimestamp` stands for `strftime('%Y-%m-%d %H:%M')`. -/
structure ChatMessage where
  id : String
  role : MessageRole
  content : String
  timestamp : Nat
  metadata : MsgMeta := {}
deriving DecidableEq

/-! ## Conversation truncation (`backend/chat/truncation.py`) -/

/-- The external collaborators of `ConversationTruncator`:
configuration (`active_provider`/`active_model`), the tiktoken tokenizer
(`tokenizer t = some enc` gives token counts; `none` models
`tiktoken.get_encoding` raising), the provider adapter used for summaries
(`llmSummary prompt = some content` is a successful `adapter.chat` response;
`none` models a provider error or any other exception inside
`_generate_summary`), and the clock read by `datetime.now()`. -/
structure TruncEnv where
  active_provider : Option String
  active_model : Option String
  tokenizer : Option (String → Nat)
  llmSummary : String → Option String
  nowIso : String
  now : Nat

/-- The `provider_limits` table from `ConversationTruncator.__init__`. -/
def providerLimits (provider model : String) : Option Nat :=
  match provider with
  | "openai" =>
    match model with
    | "gpt-4" => some 8192
    | "gpt-4-32k" => some 32768
    | "gpt-3.5-turbo" => some 4096
    | "gpt-3.5-turbo-16k" => some 16384
    | _ => none
  | "anthropic" =>
    match model with
    | "claude-3-sonnet" => some 200000
    | "claude-3-haiku" => some 200000
    | "claude-3-opus" => some 200000
    | _ => none
  | "moonshot" =>
    match model with
    | "moonshot-v1-8k" => some 8192
    | "moonshot-v1-32k" => some 32768
    | "moonshot-v1-128k" => some 131072
    | _ => none
  | _ => none

def defaultLimit : Nat := 4096
def responseReserve : Nat := 1000
def systemReserve : Nat := 500
def minKeepMessages : Nat := 4

/-- `_get_token_limit`: table lookup keyed on the active provider and model,
`default_limit` when either is unset/empty or the model is unknown. -/
def getTokenLimit (env : TruncEnv) : Nat :=
  match env.active_provider, env.active_model with
  | some p, some m =>
    if p = "" ∨ m = "" then defaultLimit
    else (providerLimits p m).getD defaultLimit
  | _, _ => defaultLimit

/-- `token_limit - self.response_reserve - self.system_reserve`
(line 52 of `truncation.py`). -/
def availableTokens (env : TruncEnv) : Int :=
  (getTokenLimit env : Int) - (responseReserve : Int) - (systemReserve : Int)

/-- `_count_conversation_tokens`: per-message content tokens plus a fixed
overhead of 4 per message, plus the new message if non-empty; on tokenizer
failure, falls back to total character count integer-divided by 4. -/
def countConversationTokens (env : TruncEnv) (messages : List ChatMessage)
    (newContent : String) : Nat :=
  match env.tokenizer with
  | some enc =>
    (messages.map (fun m => enc m.content + 4)).sum +
      (if newContent ≠ "" then enc newContent + 4 else 0)
  | none =>
    ((messages.map (fun m => m.content.length)).sum +
      (if newContent ≠ "" then newContent.length else 0)) / 4

/-- `_get_encoding`: yields the tokenizer, or raises (propagating to the
caller) when tiktoken is unavailable. -/
def getEncoding (env : TruncEnv) : Except Unit (String → Nat) :=
  match env.tokenizer with
  | some enc => .ok enc
  | none => .error ()

/-- The float literal `0.7` from line 162, modelled as the exact rational
`7/10`; the comparison below is the standard `ℚ` one by
`seventyPercentCond_iff`. -/
def seventyPercentCond (tokens : Nat) (target : Int) : Prop :=
  natQ tokens ≤ qmul (intQ target) (mkRat 7 10)

instance (tokens : Nat) (target : Int) : Decidable (seventyPercentCond tokens target) := by
  unfold seventyPercentCond
  infer_instance

theorem seventyPercentCond_iff (x : Nat) (t : Int) :
    seventyPercentCond x t ↔ ((x : ℚ) ≤ (t : ℚ) * (7 / 10)) := by
  unfold seventyPercentCond
  rw [natQ_eq, intQ_eq, qmul_eq, Rat.mkRat_eq_div]
  norm_num

/-- The backward walk of `_truncate_conversation` (lines 158-166): traverse
the reversed message list, accumulating messages while the running token
count stays within `target_tokens * 0.7`; stop at the first message that does
not fit.  Returns the kept messages in chronological order plus their token
count. -/
def recentWalk (enc : String → Nat) (target : Int) :
    List ChatMessage → Nat → List ChatMessage → List ChatMessage × Nat
  | [], tokens, acc => (acc, tokens)
  | m :: rest, tokens, acc =>
    let mt := enc m.content + 4
    if seventyPercentCond (tokens + mt) target then
      recentWalk enc target rest (tokens + mt) (m :: acc)
    else (acc, tokens)

/-- `_generate_summary`: `None` when no provider is configured or the adapter
call fails; otherwise wraps the stripped response content. -/
def generateSummary (env : TruncEnv) (conversationText : String) : Option String :=
  match env.active_provider with
  | none => none
  | some p =>
    if p = "" then none
    else
      match env.llmSummary conversationText with
      | none => none
      | some c => some ("[Previous conversation summary: " ++ c.trim ++ "]")

/-- The `role_prefix` chosen per message in `_create_conversation_summary`
(`"User: "` for user messages, `"Assistant: "` otherwise). -/
def roleTag (r : MessageRole) : String :=
  match r with
  | .user => "User: "
  | _ => "Assistant: "

/-- The `conversation_text` accumulated in `_create_conversation_summary`. -/
def conversationTextOf (messages : List ChatMessage) : String :=
  (messages.map (fun m => roleTag m.role ++ m.content ++ "\n\n")).foldl (· ++ ·) ""

/-- Stands for `datetime.strftime('%Y-%m-%d %H:%M')` on the abstract clock. -/
def fmtTimestamp (t : Nat) : String := toString t

/-- The deterministic fallback summary text (line 200 of `truncation.py`). -/
def fallbackSummaryContent (messages : List ChatMessage) : String :=
  "[Conversation summary: " ++ toString messages.length ++ " earlier messages from " ++
    (match messages.head? with | some m => fmtTimestamp m.timestamp | none => "") ++
    " to " ++
    (match messages.getLast? with | some m => fmtTimestamp m.timestamp | none => "") ++ "]"

/-- `_create_conversation_summary`: `None` on empty input, otherwise a
system-role summary message whose content is the LLM summary when available
and the deterministic placeholder otherwise. -/
def createConversationSummary (env : TruncEnv) (messages : List ChatMessage) :
    Option ChatMessage :=
  if messages = [] then none
  else
    some
      { id := "summary_" ++ env.nowIso
        role := .system
        content :=
          (generateSummary env (conversationTextOf messages)).getD
            (fallbackSummaryContent messages)
        timestamp := env.now
        metadata := { is_summary := true, summarized_count := messages.length } }

/-- `_truncate_conversation`: keep the most recent messages within 70% of the
target, fall back to exactly the last `min_keep_messages` when fewer qualify,
and otherwise prepend a summary of the older messages.  The only operation
that can raise here is obtaining the tokenizer. -/
def truncateConversation (env : TruncEnv) (messages : List ChatMessage)
    (target : Int) : Except Unit (List ChatMessage) :=
  if messages = [] then .ok messages
  else if messages.length ≤ minKeepMessages then .ok messages
  else
    match getEncoding env with
    | .error e => .error e
    | .ok enc =>
      let recent := (recentWalk enc target messages.reverse 0 []).1
      if recent.length < minKeepMessages then
        .ok (messages.drop (messages.length - minKeepMessages))
      else
        let older := messages.take (messages.length - recent.length)
        if older = [] then .ok recent
        else
          match createConversationSummary env older with
          | some sm => .ok (sm :: recent)
          | none => .ok recent

/-- The body of `truncate_if_needed`'s `try` block. -/
def truncateBody (env : TruncEnv) (messages : List ChatMessage)
    (newContent : String) : Except Unit (List ChatMessage) :=
  if (countConversationTokens env messages newContent : Int) ≤ availableTokens env then
    .ok messages
  else truncateConversation env messages (availableTokens env)

/-- `truncate_if_needed`: the whole computation is wrapped in `try/except`;
any escaping error yields the original message list. -/
def truncateIfNeeded (env : TruncEnv) (messages : List ChatMessage)
    (newContent : String) : List ChatMessage :=
  match truncateBody env messages newContent with
  | .ok result => result
  | .error _ => messages

/-! ### Concrete inputs used by witnesses and counterexamples -/

/-- An environment with a working length-based tokenizer and no provider. -/
def envA : TruncEnv :=
  { active_provider := none
    active_model := none
    tokenizer := some (fun s => s.length)
    llmSummary := fun _ => none
    nowIso := "2026-01-01T00:00:00"
    now := 100 }

def msgsA : List ChatMessage :=
  [{ id := "m1", role := .user, content := "hello there", timestamp := 1 },
   { id := "m2", role := .assistant, content := "hi", timestamp := 2 }]

/-! Claim theorems for the truncator. -/

/-- C1: for every message list whose total token count (message contents plus
per-message overhead plus the new message content, as computed by
`_count_conversation_tokens`) is at most `availableTokens`, namely the model
token limit minus the response and system reserves, `truncate_if_needed`
returns the input message list unchanged, in content and order. -/
theorem truncateIfNeeded_noop (env : TruncEnv) (messages : List ChatMessage)
    (newContent : String)
    (h : (countConversationTokens env messages newContent : Int) ≤ availableTokens env) :
    truncateIfNeeded env messages newContent = messages := by
  unfold truncateIfNeeded truncateBody
  rw [if_pos h]

/-- Witness for C1 at a concrete under-budget conversation. -/
theorem truncateIfNeeded_noop_witness :
    (countConversationTokens envA msgsA "ok" : Int) ≤ availableTokens envA ∧
      truncateIfNeeded envA msgsA "ok" = msgsA :=
  ⟨by decide, truncateIfNeeded_noop envA msgsA "ok" (by decide)⟩

/-- An environment whose tokenizer raises (tiktoken unavailable) and whose
provider adapter fails. -/
def envB : TruncEnv :=
  { active_provider := some "someprovider"
    active_model := some "somemodel"
    tokenizer := none
    llmSummary := fun _ => none
    nowIso := "2026-01-02T00:00:00"
    now := 200 }

/-- Twelve messages of 900 characters each: over budget even under the
character-estimate fallback (10800 / 4 = 2700 > 2596 available). -/
def msgsB : List ChatMessage :=
  (List.range 12).map fun i =>
    { id := "b" ++ toString i, role := .user,
      content := String.mk (List.replicate 900 'a'), timestamp := i }

/-- An environment with a working tokenizer but a failing provider adapter. -/
def envC : TruncEnv :=
  { active_provider := some "someprovider"
    active_model := some "somemodel"
    tokenizer := some (fun s => s.length * 150)
    llmSummary := fun _ => none
    nowIso := "2026-01-03T00:00:00"
    now := 300 }

/-- Ten short messages counted as 300 tokens each by `envC`'s tokenizer. -/
def msgsC : List ChatMessage :=
  (List.range 10).map fun i =>
    { id := "c" ++ toString i, role := .user, content := "m" ++ toString i,
      timestamp := i }

/-- C6 counterexample: with a provider/summarization failure (the adapter
returns no summary) on an over-budget conversation, `truncate_if_needed` does
NOT return the original, untruncated message list — it truncates, substituting
a deterministic placeholder summary. -/
theorem truncation_provider_failure_counterexample :
    generateSummary envC (conversationTextOf (msgsC.take 5)) = none ∧
      truncateIfNeeded envC msgsC "x" ≠ msgsC := by
  decide

/-- C6 (amended): `truncate_if_needed` never raises; an error that escapes its
body, such as tokenizer failure while truncating, yields the original
untruncated list; token counting falls back to the character-count-divided-
by-4 estimate when the tokenizer fails; and a provider/summarization failure
degrades to a deterministic placeholder summary (not to the original list). -/
theorem truncation_error_handling (env : TruncEnv) (messages : List ChatMessage)
    (newContent : String) :
    (∀ e, truncateBody env messages newContent = .error e →
      truncateIfNeeded env messages newContent = messages) ∧
    (env.tokenizer = none →
      countConversationTokens env messages newContent =
        ((messages.map (fun m => m.content.length)).sum +
          (if newContent ≠ "" then newContent.length else 0)) / 4) ∧
    (∀ ms : List ChatMessage, ms ≠ [] →
      generateSummary env (conversationTextOf ms) = none →
      createConversationSummary env ms =
        some { id := "summary_" ++ env.nowIso, role := .system,
               content := fallbackSummaryContent ms, timestamp := env.now,
               metadata := { is_summary := true, summarized_count := ms.length } }) := by
  refine ⟨fun e he => ?_, fun ht => ?_, fun ms hne hgen => ?_⟩
  · unfold truncateIfNeeded
    rw [he]
  · unfold countConversationTokens
    rw [ht]
  · unfold createConversationSummary
    rw [if_neg hne, hgen]
    rfl

set_option maxRecDepth 16000 in
/-- Witness for the amended C6 at concrete inputs: a failing tokenizer on an
over-budget conversation returns the original list and counts by characters;
a failing provider yields the placeholder summary. -/
theorem truncation_error_handling_witness :
    truncateIfNeeded envB msgsB "" = msgsB ∧
    countConversationTokens envB msgsB "" =
      ((msgsB.map (fun m => m.content.length)).sum +
        (if ("" : String) ≠ "" then ("" : String).length else 0)) / 4 ∧
    createConversationSummary envB msgsA =
      some { id := "summary_" ++ envB.nowIso, role := .system,
             content := fallbackSummaryContent msgsA, timestamp := envB.now,
             metadata := { is_summary := true, summarized_count := msgsA.length } } :=
  ⟨(truncation_error_handling envB msgsB "").1 () (by rfl),
   (truncation_error_handling envB msgsB "").2.1 rfl,
   (truncation_error_handling envB msgsB "").2.2 msgsA (by decide) (by rfl)⟩

/-- The tokenizer of `envF`: each short test message counts as 1000 tokens. -/
def encF : String → Nat := fun s => s.length * 500

/-- An environment realizing the C5 scenario proportionally: available budget
2596 (default limit 4096 minus reserves), messages of about 0.39 of the
budget each — the same regime as the claim's 200-token messages against a
500-token budget. -/
def envF : TruncEnv :=
  { active_provider := some "someprovider"
    active_model := some "somemodel"
    tokenizer := some encF
    llmSummary := fun _ => none
    nowIso := "2026-01-04T00:00:00"
    now := 400 }

/-- Ten messages counted as 1000 tokens each by `encF`. -/
def msgsF : List ChatMessage :=
  (List.range 10).map fun i =>
    { id := "f" ++ toString i, role := .user, content := "m" ++ toString i,
      timestamp := i }

/-- C5 counterexample: in the claimed scenario (ten ~0.4-of-budget messages,
floor 4) the backward walk keeps only one message, fewer than the floor, so
the code returns exactly the last four messages with NO summary message, and
the token count of those four exceeds 0.7 of the available budget — contrary
to the claim's `[summary] + last 4 within 0.7 x budget`. -/
theorem truncation_scenario_counterexample :
    truncateIfNeeded envF msgsF "x" = msgsF.drop 6 ∧
    (∀ m ∈ truncateIfNeeded envF msgsF "x", m.metadata.is_summary = false) ∧
    ¬ ((countConversationTokens envF (msgsF.drop 6) "" : ℚ) ≤
        (availableTokens envF : ℚ) * (7 / 10)) := by
  refine ⟨by decide, by decide, ?_⟩
  rw [← seventyPercentCond_iff]
  decide

/-- C5 (amended): when truncation is needed but fewer than the
`min_keep_messages` floor of most-recent messages fit within 70% of the
available budget, `truncate_if_needed` returns exactly the last
`min_keep_messages` messages verbatim, with no summary message prepended
(their token cost may exceed the 70% budget). -/
theorem truncateIfNeeded_floor_fallback (env : TruncEnv)
    (messages : List ChatMessage) (newContent : String) (enc : String → Nat)
    (htok : env.tokenizer = some enc)
    (hlen : minKeepMessages < messages.length)
    (hover : availableTokens env <
      (countConversationTokens env messages newContent : Int))
    (hwalk : (recentWalk enc (availableTokens env) messages.reverse 0 []).1.length <
      minKeepMessages) :
    truncateIfNeeded env messages newContent =
      messages.drop (messages.length - minKeepMessages) := by
  have hne : messages ≠ [] := by
    intro h
    rw [h] at hlen
    simp [minKeepMessages] at hlen
  have hg : getEncoding env = .ok enc := by
    unfold getEncoding
    rw [htok]
  unfold truncateIfNeeded truncateBody truncateConversation
  rw [if_neg (not_le.mpr hover), if_neg hne, if_neg (not_le.mpr hlen), hg]
  simp only [if_pos hwalk]

/-- Witness for the amended C5 at the concrete scenario. -/
theorem truncateIfNeeded_floor_fallback_witness :
    envF.tokenizer = some encF ∧
    minKeepMessages < msgsF.length ∧
    availableTokens envF < (countConversationTokens envF msgsF "x" : Int) ∧
    (recentWalk encF (availableTokens envF) msgsF.reverse 0 []).1.length <
      minKeepMessages ∧
    truncateIfNeeded envF msgsF "x" = msgsF.drop (msgsF.length - minKeepMessages) :=
  ⟨rfl, by decide, by decide, by decide,
    truncateIfNeeded_floor_fallback envF msgsF "x" encF rfl (by decide) (by decide)
      (by decide)⟩

/-! ## Context prompt construction (`backend/rag/retrieval.py`,
`RetrievalEngine.create_context_prompt`) -/

/-- An enriched retrieval result as consumed by `create_context_prompt`:
the dict keys it reads, with Python-falsy defaults (`item.get(..., '')`). -/
structure ContextItem where
  similarity : ℚ := 0
  title : String := ""
  url : String := ""
  author : String := ""
  content : String := ""
  summary : String := ""
deriving DecidableEq

/-- Kernel-computable floor of a rational. -/
def qfloor (q : ℚ) : Int := Int.fdiv q.num q.den

/-- Models the Python format spec `"{:.2f}"` applied to the similarity score:
scale by 100 and round (half up; CPython rounds the underlying binary float
half to even — the difference affects only display text, which no claim
inspects), then print with two decimals. -/
def format2f (q : ℚ) : String :=
  let c : Int := qfloor (qadd (qmul q (intQ 100)) (mkRat 1 2))
  let a := c.natAbs
  (if c < 0 then "-" else "") ++ toString (a / 100) ++ "." ++
    (if a % 100 < 10 then "0" else "") ++ toString (a % 100)

/-- The `item_summary` header built in lines 132-141 of `retrieval.py`
(similarity line plus the title/url/author lines present when truthy). -/
def itemSummaryBase (i : Nat) (item : ContextItem) : String :=
  let s := "Source " ++ toString i ++ " (similarity: " ++ format2f item.similarity ++ "):"
  let s := if item.title ≠ "" then s ++ "\nTitle: " ++ item.title else s
  let s := if item.url ≠ "" then s ++ "\nURL: " ++ item.url else s
  if item.author ≠ "" then s ++ "\nAuthor: " ++ item.author else s

/-- `item.get('content', '') or item.get('summary', '')`. -/
def itemContentOf (item : ContextItem) : String :=
  if item.content ≠ "" then item.content else item.summary

/-- The complete `item_summary` for one item (lines 132-153): the base header
plus the content block when there is content and more than 100 characters of
remaining space (content truncated with `"..."` when too long), plus the
trailing newline. -/
def itemSummaryFull (maxContextLength currentLength i : Nat)
    (item : ContextItem) : String :=
  let base := itemSummaryBase i item
  let content := itemContentOf item
  let base :=
    if content ≠ "" then
      let remaining : Int :=
        (maxContextLength : Int) - (currentLength : Int) - (base.length : Int) - 100
      if remaining > 100 then
        if (content.length : Int) > remaining then
          base ++ "\nContent: " ++ (content.take remaining.toNat ++ "...")
        else base ++ "\nContent: " ++ content
      else base
    else base
  base ++ "\n"

/-- The `for i, item in enumerate(retrieved_items, 1)` loop with its `break`
(lines 130-160): append each item's summary unless doing so would push the
running character count beyond the budget, in which case stop.  Returns the
accumulated parts and the final running count. -/
def contextLoop (maxContextLength : Nat) :
    List ContextItem → Nat → Nat → List String → List String × Nat
  | [], _i, currentLength, parts => (parts, currentLength)
  | item :: rest, i, currentLength, parts =>
    let s := itemSummaryFull maxContextLength currentLength i item
    if currentLength + s.length > maxContextLength then (parts, currentLength)
    else contextLoop maxContextLength rest (i + 1) (currentLength + s.length)
      (parts ++ [s])

/-- The two header parts appended before the loop (lines 125-126). -/
def headerParts : List String := ["Based on the following relevant information:", ""]

/-- Python's `"\n".join`. -/
def joinNL : List String → String
  | [] => ""
  | [s] => s
  | s :: rest => s ++ "\n" ++ joinNL rest

/-- `create_context_prompt`: empty string for no items; otherwise the header,
the budget-limited item blocks, and the query, joined by newlines. -/
def createContextPrompt (query : String) (retrievedItems : List ContextItem)
    (maxContextLength : Nat) : String :=
  if retrievedItems = [] then ""
  else
    let currentLength := (joinNL headerParts).length
    let res := contextLoop maxContextLength retrievedItems 1 currentLength headerParts
    joinNL (res.1 ++ ["Query: " ++ query, ""])

theorem joinNL_append_two (a b : String) :
    ∀ (l : List String), l ≠ [] →
      joinNL (l ++ [a, b]) = joinNL l ++ "\n" ++ a ++ "\n" ++ b := by
  intro l
  induction l with
  | nil => intro h; exact absurd rfl h
  | cons x t ih =>
    intro _
    cases t with
    | nil =>
      show joinNL [x, a, b] = joinNL [x] ++ "\n" ++ a ++ "\n" ++ b
      show x ++ "\n" ++ joinNL [a, b] = joinNL [x] ++ "\n" ++ a ++ "\n" ++ b
      show x ++ "\n" ++ (a ++ "\n" ++ b) = x ++ "\n" ++ a ++ "\n" ++ b
      simp [String.append_assoc]
    | cons y t2 =>
      show x ++ "\n" ++ joinNL ((y :: t2) ++ [a, b]) =
        (x ++ "\n" ++ joinNL (y :: t2)) ++ "\n" ++ a ++ "\n" ++ b
      rw [ih (by simp)]
      simp [String.append_assoc]

theorem contextLoop_budget (maxLen : Nat) :
    ∀ (items : List ContextItem) (i cur : Nat) (parts : List String),
      (contextLoop maxLen items i cur parts).2 ≤ maxLen ∨
      (contextLoop maxLen items i cur parts).2 = cur := by
  intro items
  induction items with
  | nil =>
    intro i cur parts
    right
    rfl
  | cons item rest ih =>
    intro i cur parts
    unfold contextLoop
    by_cases hb : cur + (itemSummaryFull maxLen cur i item).length > maxLen
    · rw [if_pos hb]
      right
      rfl
    · rw [if_neg hb]
      rcases ih (i + 1) (cur + (itemSummaryFull maxLen cur i item).length)
          (parts ++ [itemSummaryFull maxLen cur i item]) with h | h
      · left
        exact h
      · left
        rw [h]
        omega

theorem contextLoop_parts (maxLen : Nat) :
    ∀ (items : List ContextItem) (i cur : Nat) (parts : List String),
      ∃ extra, (contextLoop maxLen items i cur parts).1 = parts ++ extra := by
  intro items
  induction items with
  | nil =>
    intro i cur parts
    exact ⟨[], by simp [contextLoop]⟩
  | cons item rest ih =>
    intro i cur parts
    unfold contextLoop
    by_cases hb : cur + (itemSummaryFull maxLen cur i item).length > maxLen
    · rw [if_pos hb]
      exact ⟨[], by simp⟩
    · rw [if_neg hb]
      rcases ih (i + 1) (cur + (itemSummaryFull maxLen cur i item).length)
          (parts ++ [itemSummaryFull maxLen cur i item]) with ⟨extra, he⟩
      exact ⟨itemSummaryFull maxLen cur i item :: extra, by rw [he]; simp⟩

/-- C9 counterexample: for an empty item list `create_context_prompt` returns
`""` immediately (line 121-122), so the original query is not placed at the
end of the returned prompt. -/
theorem createContextPrompt_empty_counterexample :
    createContextPrompt "q" [] 3000 = "" ∧
    ¬ ∃ pre, createContextPrompt "q" [] 3000 = pre ++ ("Query: " ++ "q" ++ "\n") := by
  constructor
  · rfl
  · rintro ⟨pre, h⟩
    have hlen : (createContextPrompt "q" [] 3000).length =
        pre.length + ("Query: " ++ "q" ++ "\n").length := by
      rw [h, String.length_append]
    have h9 : ("Query: " ++ "q" ++ "\n").length = 9 := by decide
    have h0 : (createContextPrompt "q" [] 3000).length = 0 := by decide
    omega

/-- C9 (amended): for every query and `maxContextLength` and every NON-EMPTY
item list, `create_context_prompt` is deterministic (a pure function of
exactly these three inputs), the running character budget of the item loop
never exceeds `maxContextLength` once any item block has been added (so the
loop stops adding items when the budget is exhausted), and the returned
prompt always ends with the original query. -/
theorem createContextPrompt_spec (query : String) (items : List ContextItem)
    (maxLen : Nat) (hne : items ≠ []) :
    (∀ q2 i2 m2, q2 = query → i2 = items → m2 = maxLen →
      createContextPrompt q2 i2 m2 = createContextPrompt query items maxLen) ∧
    ((contextLoop maxLen items 1 (joinNL headerParts).length headerParts).2 ≤ maxLen ∨
      (contextLoop maxLen items 1 (joinNL headerParts).length headerParts).2 =
        (joinNL headerParts).length) ∧
    (∃ pre, createContextPrompt query items maxLen =
      pre ++ ("Query: " ++ query ++ "\n")) := by
  refine ⟨fun q2 i2 m2 hq hi hm => by rw [hq, hi, hm],
    contextLoop_budget maxLen items 1 (joinNL headerParts).length headerParts, ?_⟩
  rcases contextLoop_parts maxLen items 1 (joinNL headerParts).length headerParts
    with ⟨extra, he⟩
  have hparts : (contextLoop maxLen items 1 (joinNL headerParts).length headerParts).1 ≠ [] := by
    rw [he]
    simp [headerParts]
  unfold createContextPrompt
  rw [if_neg hne]
  refine ⟨joinNL
    (contextLoop maxLen items 1 (joinNL headerParts).length headerParts).1 ++ "\n", ?_⟩
  rw [joinNL_append_two _ _ _ hparts]
  simp [String.append_assoc]

/-- A concrete enriched item. -/
def itemX : ContextItem :=
  { similarity := mkRat 9 10, title := "T", url := "http://x",
    content := "hello world" }

/-- Witness for the amended C9 at a concrete non-empty item list. -/
theorem createContextPrompt_spec_witness :
    ([itemX] : List ContextItem) ≠ [] ∧
    (∃ pre, createContextPrompt "what" [itemX] 3000 =
      pre ++ ("Query: " ++ "what" ++ "\n")) :=
  ⟨by decide, (createContextPrompt_spec "what" [itemX] 3000 (by decide)).2.2⟩

/-! ## Vector store (`backend/rag/storage.py`)

Python dicts are modelled as association lists with first-match lookup;
`dictSet` replaces in place or appends (insertion-order semantics), `dictDel`
removes the entry. -/

def dictGet {κ β : Type} [DecidableEq κ] : List (κ × β) → κ → Option β
  | [], _ => none
  | (k2, v) :: t, k => if k = k2 then some v else dictGet t k

def dictSet {κ β : Type} [DecidableEq κ] : List (κ × β) → κ → β → List (κ × β)
  | [], k, v => [(k, v)]
  | (k2, v2) :: t, k, v =>
    if k = k2 then (k, v) :: t else (k2, v2) :: dictSet t k v

def dictDel {κ β : Type} [DecidableEq κ] : List (κ × β) → κ → List (κ × β)
  | [], _ => []
  | (k2, v2) :: t, k => if k = k2 then t else (k2, v2) :: dictDel t k

/-- The keys of an association list are pairwise distinct (true of every
Python dict). -/
def keysNodup {κ β : Type} [DecidableEq κ] (l : List (κ × β)) : Prop :=
  (l.map Prod.fst).Nodup

instance {κ β : Type} [DecidableEq κ] (l : List (κ × β)) :
    Decidable (keysNodup l) := by
  unfold keysNodup
  infer_instance

/-- An embedding vector (a row of the numpy array). -/
abbrev Vec := List ℚ

/-- Kernel-computable sum of a list of rationals. -/
def qsum (l : List ℚ) : ℚ := l.foldr qadd 0

theorem qsum_eq (l : List ℚ) : qsum l = l.sum := by
  induction l with
  | nil => rfl
  | cons x t ih =>
    show qadd x (qsum t) = (x :: t).sum
    rw [qadd_eq, ih, List.sum_cons]

/-- The inner product of two vectors (`np.dot` / the FAISS IP metric). -/
def dotp (u v : Vec) : ℚ := qsum (List.zipWith qmul u v)

/-- The squared L2 norm of a vector. -/
def sumSq (v : Vec) : ℚ := qsum (v.map (fun x => qmul x x))

/-- The exact square root of a nonnegative rational, when it is rational. -/
def ratSqrtExact (q : ℚ) : Option ℚ :=
  if q < 0 then none
  else
    match natSqrtExact q.num.natAbs, natSqrtExact q.den with
    | some a, some b => some (mkRat a b)
    | _, _ => none

/-- `_normalize_embeddings` on one row: divide by the L2 norm, leaving
zero-norm rows unchanged (`norms[norms == 0] = 1` in the source).  Over `ℚ`
the square root exists only when the squared norm is a square of a rational;
rows with an irrational norm are returned unchanged — every claim is settled
on vectors with rational norms, where this model agrees exactly with the
float code. -/
def normalizeVec (v : Vec) : Vec :=
  match ratSqrtExact (sumSq v) with
  | some n => if n = 0 then v else v.map (fun x => qdiv x n)
  | none => v

/-- `_normalize_embeddings` over the whole array. -/
def normalizeEmbeddings (vs : List Vec) : List Vec := vs.map normalizeVec

/-- The FAISS `IndexFlatIP`: a fixed dimension and the stored rows in slot
order. -/
structure FaissIndexFlatIP where
  d : Nat
  xb : List Vec
deriving DecidableEq

def FaissIndexFlatIP.ntotal (idx : FaissIndexFlatIP) : Nat := idx.xb.length

/-- `index.add(x)`: FAISS requires every row to have the index dimension and
raises otherwise (modelled as `none`), appending the rows on success. -/
def FaissIndexFlatIP.addVecs (idx : FaissIndexFlatIP) (vs : List Vec) :
    Option FaissIndexFlatIP :=
  if vs.all (fun v => v.length = idx.d) then some { idx with xb := idx.xb ++ vs }
  else none

/-- Insert a `(similarity, slot)` candidate into a list ordered by descending
similarity, ties by ascending slot. -/
def insertRanked (x : ℚ × Nat) : List (ℚ × Nat) → List (ℚ × Nat)
  | [] => [x]
  | y :: ys =>
    if x.1 > y.1 ∨ (x.1 = y.1 ∧ x.2 < y.2) then x :: y :: ys
    else y :: insertRanked x ys

/-- Sort candidates by descending similarity (insertion sort; FAISS exact
search returns candidates in this order, with ties resolved here
deterministically by ascending slot id). -/
def rankCandidates (l : List (ℚ × Nat)) : List (ℚ × Nat) := l.foldr insertRanked []

/-- `index.search(q, n)` for a single (already normalized) query: the top `n`
stored rows by inner product, as `(similarity, slot)` pairs. -/
def FaissIndexFlatIP.searchQ (idx : FaissIndexFlatIP) (q : Vec) (n : Nat) :
    List (ℚ × Nat) :=
  (rankCandidates ((idx.xb.enum).map (fun p => (dotp p.2 q, p.1)))).take n

/-- The metadata dict stored per slot, restricted to the keys the store logic
reads: `item_id` and the `deleted` flag (`metadata.get('deleted', False)`,
hence the `false` default). -/
structure EmbMeta where
  item_id : String
  deleted : Bool := false
deriving DecidableEq

/-- A search hit: `metadata.copy()` plus the `similarity` key. -/
structure SearchResult where
  item_id : String
  deleted : Bool
  similarity : ℚ
deriving DecidableEq

def EmbMeta.toResult (m : EmbMeta) (sim : ℚ) : SearchResult :=
  { item_id := m.item_id, deleted := m.deleted, similarity := sim }

/-- The on-disk image written by `_save_index` (FAISS index file, metadata
json, id-mapping json with the slot counter). -/
structure DiskImage where
  xb : List Vec
  metadata : List (Nat × EmbMeta)
  id_to_faiss : List (String × Nat)
  faiss_to_id : List (Nat × String)
  next_faiss_id : Nat
deriving DecidableEq

/-- `VectorStore` state: the FAISS index, the three dicts, the slot counter,
and the persisted files (`none` until the first save). -/
structure VectorStore where
  dimension : Nat
  index : FaissIndexFlatIP
  metadata : List (Nat × EmbMeta)
  id_to_faiss : List (String × Nat)
  faiss_to_id : List (Nat × String)
  next_faiss_id : Nat
  disk : Option DiskImage := none
deriving DecidableEq

/-- `_create_new_index` / a fresh store. -/
def VectorStore.new (dimension : Nat) : VectorStore :=
  { dimension
    index := { d := dimension, xb := [] }
    metadata := []
    id_to_faiss := []
    faiss_to_id := []
    next_faiss_id := 0 }

/-- `_save_index`: write the in-memory state to disk. -/
def saveIndex (s : VectorStore) : VectorStore :=
  { s with
    disk := some
      { xb := s.index.xb, metadata := s.metadata, id_to_faiss := s.id_to_faiss,
        faiss_to_id := s.faiss_to_id, next_faiss_id := s.next_faiss_id } }

/-- The `for i, metadata in enumerate(metadata_list)` loop of
`add_embeddings` (lines 103-109): write the metadata and both id mappings for
consecutive slot ids. -/
def storeMappings : VectorStore → Nat → List EmbMeta → VectorStore
  | s, _, [] => s
  | s, fid, md :: rest =>
    storeMappings
      { s with
        metadata := dictSet s.metadata fid md
        id_to_faiss := dictSet s.id_to_faiss md.item_id fid
        faiss_to_id := dictSet s.faiss_to_id fid md.item_id }
      (fid + 1) rest

/-- The errors `add_embeddings` can raise: the explicit `ValueError` for a
count mismatch, and the FAISS dimension assertion re-raised by the `except`
block. -/
inductive StoreErr
  | countMismatch
  | dimMismatch
deriving DecidableEq

/-- `add_embeddings`, returned as the store state left behind by the call
together with the raised error, if any.  The source raises before any of the
mutations (the count check precedes the `try` block; `index.add` checks the
dimension before the dict writes, the counter bump and `_save_index`). -/
def addEmbeddings (s : VectorStore) (embeddings : List Vec)
    (metadataList : List EmbMeta) : VectorStore × Option StoreErr :=
  if embeddings.length ≠ metadataList.length then (s, some .countMismatch)
  else if embeddings.length = 0 then (s, none)
  else
    match s.index.addVecs (normalizeEmbeddings embeddings) with
    | none => (s, some .dimMismatch)
    | some idx =>
      let s2 := storeMappings { s with index := idx } s.next_faiss_id metadataList
      (saveIndex { s2 with next_faiss_id := s2.next_faiss_id + embeddings.length },
        none)

/-- `remove_embedding`: logical deletion — flag the slot's metadata, drop the
`item_id -> slot` mapping, save; no-op for an unknown id. -/
def removeEmbedding (s : VectorStore) (item_id : String) : VectorStore :=
  match dictGet s.id_to_faiss item_id with
  | none => s
  | some fid =>
    match dictGet s.metadata fid with
    | some md =>
      saveIndex
        { s with
          metadata := dictSet s.metadata fid { md with deleted := true }
          id_to_faiss := dictDel s.id_to_faiss item_id }
    | none => saveIndex { s with id_to_faiss := dictDel s.id_to_faiss item_id }

/-- `update_embedding`: remove (when present) then add the single row. -/
def updateEmbedding (s : VectorStore) (item_id : String) (embedding : Vec)
    (md : EmbMeta) : VectorStore × Option StoreErr :=
  addEmbeddings
    (if (dictGet s.id_to_faiss item_id).isSome then removeEmbedding s item_id else s)
    [embedding] [md]

/-- The result loop of `search` (lines 160-179): per candidate, `continue` on
sub-threshold similarity or a deleted slot, append otherwise, `break` once
`k` results are collected. -/
def searchLoop (metadata : List (Nat × EmbMeta)) (minSimilarity : ℚ) (k : Nat) :
    List (ℚ × Nat) → List SearchResult → List SearchResult
  | [], results => results
  | (sim, fid) :: rest, results =>
    if sim < minSimilarity then searchLoop metadata minSimilarity k rest results
    else
      match dictGet metadata fid with
      | some md =>
        if md.deleted then searchLoop metadata minSimilarity k rest results
        else
          let results2 := results ++ [md.toResult sim]
          if k ≤ results2.length then results2
          else searchLoop metadata minSimilarity k rest results2
      | none =>
        if k ≤ results.length then results
        else searchLoop metadata minSimilarity k rest results

/-- `search`: empty result on an empty index; otherwise normalize the query,
fetch `min(k * 2, ntotal)` raw candidates from FAISS, and filter via
`searchLoop`.  (The `except` branch returning `[]` is unreachable in the
model: no modelled operation raises.) -/
def search (s : VectorStore) (queryEmbedding : Vec) (k : Nat)
    (minSimilarity : ℚ) : List SearchResult :=
  if s.index.ntotal = 0 then []
  else
    searchLoop s.metadata minSimilarity k
      (s.index.searchQ (normalizeVec queryEmbedding) (min (k * 2) s.index.ntotal)) []

/-- `get_embedding_metadata`: `None` for an unknown id, a missing slot, or a
deleted record. -/
def getEmbeddingMetadata (s : VectorStore) (item_id : String) : Option EmbMeta :=
  match dictGet s.id_to_faiss item_id with
  | none => none
  | some fid =>
    match dictGet s.metadata fid with
    | some md => if md.deleted = false then some md else none
    | none => none

/-- The fields of `get_stats` the claims mention. -/
structure Stats where
  total_embeddings : Nat
  active_embeddings : Nat
  deleted_embeddings : Nat
  dimension : Nat
deriving DecidableEq

/-- `get_stats`. -/
def getStats (s : VectorStore) : Stats :=
  { total_embeddings := s.index.ntotal
    active_embeddings := (s.metadata.filter (fun p => p.2.deleted = false)).length
    deleted_embeddings := (s.metadata.filter (fun p => p.2.deleted = true)).length
    dimension := s.dimension }

/-- Structural well-formedness every store reachable from
`VectorStore.new` enjoys: the index has the store's dimension, the slot
counter equals the index size, metadata slots are below the counter, and the
dicts have distinct keys. -/
def WF (s : VectorStore) : Prop :=
  s.index.d = s.dimension ∧
  s.next_faiss_id = s.index.ntotal ∧
  (∀ p ∈ s.metadata, p.1 < s.next_faiss_id) ∧
  keysNodup s.metadata ∧
  keysNodup s.id_to_faiss

instance (s : VectorStore) : Decidable (WF s) := by
  unfold WF
  infer_instance

/-- The spec's data-model invariant: every non-deleted record's `item_id`
maps (via `id_to_faiss`) to exactly its own slot — hence no two non-deleted
records share an `item_id`. -/
def uniqueActive (s : VectorStore) : Prop :=
  ∀ p ∈ s.metadata, p.2.deleted = false →
    dictGet s.id_to_faiss p.2.item_id = some p.1

instance (s : VectorStore) : Decidable (uniqueActive s) := by
  unfold uniqueActive
  infer_instance

/-- The `(similarity, slot)` pairs of all stored rows against a query, in
slot order — the candidate pool `search` ranks and windows. -/
def candList (s : VectorStore) (queryEmbedding : Vec) : List (ℚ × Nat) :=
  (s.index.xb.enum).map (fun p => (dotp p.2 (normalizeVec queryEmbedding), p.1))

/-- A candidate survives `searchLoop`'s two `continue` filters: at or above
the similarity threshold, present and not deleted. -/
def appendable (metadata : List (Nat × EmbMeta)) (minSimilarity : ℚ)
    (c : ℚ × Nat) : Bool :=
  decide (minSimilarity ≤ c.1) &&
    (match dictGet metadata c.2 with
     | some md => !md.deleted
     | none => false)

/-- The number of candidates in the list that would be appended. -/
def appendCount (metadata : List (Nat × EmbMeta)) (minSimilarity : ℚ)
    (cands : List (ℚ × Nat)) : Nat :=
  (cands.filter (appendable metadata minSimilarity)).length

/-! ### Concrete stores used by witnesses and counterexamples -/

/-- A store holding `"a"` at `[1,0]` and `"b"` at `[3,4]` (normalized to
`[3/5,4/5]`). -/
def sC4 : VectorStore :=
  (addEmbeddings (VectorStore.new 2) [[1, 0], [3, 4]]
    [{ item_id := "a" }, { item_id := "b" }]).1

/-- A store where the same `item_id` was added twice without an intervening
removal: two non-deleted records share `"a"`. -/
def sDup : VectorStore :=
  (addEmbeddings (addEmbeddings (VectorStore.new 2) [[1, 0]] [{ item_id := "a" }]).1
    [[1, 0]] [{ item_id := "a" }]).1

/-- A store with three rows where the two highest-similarity slots for the
query `[1,0]` have been soft-deleted. -/
def sCrowd : VectorStore :=
  removeEmbedding
    (removeEmbedding
      (addEmbeddings (VectorStore.new 2) [[1, 0], [1, 0], [3, 4]]
        [{ item_id := "d1" }, { item_id := "d2" }, { item_id := "c" }]).1
      "d1")
    "d2"

/-! ### C7: atomic failure of `add_embeddings` -/

theorem normalizeVec_length (v : Vec) : (normalizeVec v).length = v.length := by
  unfold normalizeVec
  cases ratSqrtExact (sumSq v) with
  | none => rfl
  | some n =>
    show (if n = 0 then v else v.map (fun x => qdiv x n)).length = v.length
    by_cases h : n = 0
    · rw [if_pos h]
    · rw [if_neg h]
      exact List.length_map v _

/-- C7: `add_embeddings` raises on a vector of the wrong length (FAISS's
dimension check) and on a count mismatch between vectors and metadata (the
explicit `ValueError`), and whenever it raises it commits no partial state:
the store — its id-to-slot and slot-to-id mappings, metadata, slot counter
and persisted files — is exactly as before the call. -/
theorem addEmbeddings_atomic (s : VectorStore) (vs : List Vec)
    (mds : List EmbMeta) :
    ((addEmbeddings s vs mds).2.isSome → (addEmbeddings s vs mds).1 = s) ∧
    (vs.length ≠ mds.length → (addEmbeddings s vs mds).2 = some .countMismatch) ∧
    (vs.length = mds.length → vs ≠ [] → (∃ v ∈ vs, v.length ≠ s.index.d) →
      (addEmbeddings s vs mds).2 = some .dimMismatch) := by
  refine ⟨?_, ?_, ?_⟩
  · intro hsome
    unfold addEmbeddings at *
    by_cases hc : vs.length ≠ mds.length
    · rw [if_pos hc]
    · rw [if_neg hc] at hsome ⊢
      by_cases hz : vs.length = 0
      · rw [if_pos hz] at hsome
        simp at hsome
      · rw [if_neg hz] at hsome ⊢
        cases hadd : s.index.addVecs (normalizeEmbeddings vs) with
        | none => rfl
        | some idx =>
          rw [hadd] at hsome
          simp at hsome
  · intro hc
    unfold addEmbeddings
    rw [if_pos hc]
  · intro hc hne hbad
    unfold addEmbeddings
    rw [if_neg (by omega)]
    rw [if_neg (by
      intro h0
      exact hne (List.length_eq_zero.mp h0))]
    have hnone : s.index.addVecs (normalizeEmbeddings vs) = none := by
      unfold FaissIndexFlatIP.addVecs
      rw [if_neg]
      intro hall
      rcases hbad with ⟨v, hv, hlen⟩
      have hmem : normalizeVec v ∈ normalizeEmbeddings vs := List.mem_map_of_mem _ hv
      have h2 := of_decide_eq_true ((List.all_eq_true.mp hall) _ hmem)
      rw [normalizeVec_length] at h2
      exact hlen h2
    rw [hnone]

/-- Witness for C7: adding a 3-dimensional row to a 2-dimensional store
raises and leaves the store untouched; a count mismatch raises too. -/
theorem addEmbeddings_atomic_witness :
    (addEmbeddings (VectorStore.new 2) [[1, 2, 3]] [{ item_id := "a" }]).2.isSome ∧
    (addEmbeddings (VectorStore.new 2) [[1, 2, 3]] [{ item_id := "a" }]).1 =
      VectorStore.new 2 ∧
    (addEmbeddings (VectorStore.new 2) [[1, 2, 3]] [{ item_id := "a" }]).2 =
      some .dimMismatch ∧
    (addEmbeddings (VectorStore.new 2) [[1, 0]] []).2 = some .countMismatch :=
  ⟨by decide,
   (addEmbeddings_atomic (VectorStore.new 2) [[1, 2, 3]] [{ item_id := "a" }]).1
     (by decide),
   (addEmbeddings_atomic (VectorStore.new 2) [[1, 2, 3]] [{ item_id := "a" }]).2.2
     (by decide) (by decide) (by decide),
   (addEmbeddings_atomic (VectorStore.new 2) [[1, 0]] []).2.1 (by decide)⟩

/-! ### C10: deleted slots crowd active matches out of the 2k window -/

/-- C10: a store state and query where at least `k = 1` non-deleted records
have similarity at or above `minSimilarity = 1/2`, yet `search` returns fewer
than `k` results: the raw candidate set is capped at
`min(2k, ntotal) = 2`, and both windowed candidates are soft-deleted slots
that outrank the active match. -/
theorem search_deleted_crowding :
    1 ≤ appendCount sCrowd.metadata (mkRat 1 2) (candList sCrowd [1, 0]) ∧
    (search sCrowd [1, 0] 1 (mkRat 1 2)).length < 1 := by
  decide

/-! ### C8: unit norm after normalization -/

/-- C8 counterexample: the zero vector is accepted by `add_embeddings`
without error (its dimension matches), and the vector actually stored in the
index is the zero vector itself — squared L2 norm `0`, not `1`
(`norms[norms == 0] = 1` skips the division). -/
theorem normalize_zero_counterexample :
    (addEmbeddings (VectorStore.new 2) [[0, 0]] [{ item_id := "z" }]).2 = none ∧
    (addEmbeddings (VectorStore.new 2) [[0, 0]] [{ item_id := "z" }]).1.index.xb =
      [[0, 0]] ∧
    sumSq [(0 : ℚ), 0] ≠ 1 := by
  decide

theorem ratSqrtExact_sq {q r : ℚ} (h : ratSqrtExact q = some r) : r * r = q := by
  unfold ratSqrtExact at h
  by_cases hq : q < 0
  · rw [if_pos hq] at h
    cases h
  · rw [if_neg hq] at h
    cases ha : natSqrtExact q.num.natAbs with
    | none =>
      rw [ha] at h
      cases h
    | some a =>
      cases hb : natSqrtExact q.den with
      | none =>
        rw [ha, hb] at h
        cases h
      | some b =>
        rw [ha, hb] at h
        cases h
        have hasq : a * a = q.num.natAbs := sqrtSearch_sq ha
        have hbsq : b * b = q.den := sqrtSearch_sq hb
        have hbnz : b ≠ 0 := by
          intro h0
          rw [h0] at hbsq
          exact q.den_nz (by omega)
        have hbq : ((b : ℚ)) ≠ 0 := by exact_mod_cast hbnz
        rw [Rat.mkRat_eq_div]
        rw [div_mul_div_comm]
        have hnum : ((a : ℚ)) * (a : ℚ) = (q.num : ℚ) := by
          have h1 : (((a * a : ℕ) : ℚ)) = ((q.num.natAbs : ℚ)) := by
            exact_mod_cast congrArg (fun n : ℕ => (n : ℚ)) hasq
          push_cast at h1
          rw [h1, Int.cast_natAbs]
          exact_mod_cast abs_of_nonneg (Rat.num_nonneg.mpr (not_lt.mp hq))
        have hden : ((b : ℚ)) * (b : ℚ) = (q.den : ℚ) := by
          exact_mod_cast congrArg (fun n : ℕ => (n : ℚ)) hbsq
        push_cast
        rw [hnum, hden, Rat.num_div_den]

theorem storeMappings_index :
    ∀ (mds : List EmbMeta) (s : VectorStore) (fid : Nat),
      (storeMappings s fid mds).index = s.index ∧
      (storeMappings s fid mds).dimension = s.dimension := by
  intro mds
  induction mds with
  | nil =>
    intro s fid
    exact ⟨rfl, rfl⟩
  | cons md rest ih =>
    intro s fid
    exact ih _ _

/-- C8 (amended): every vector accepted by `add_embeddings` is stored as its
`_normalize_embeddings` image (and `search` applies the same function to the
query), and for a NONZERO vector (of rational norm, where the `ℚ` model is
exact) that image has unit L2 norm; the zero vector is stored unchanged with
norm 0. -/
theorem normalize_unit_norm (v : Vec) (r : ℚ)
    (hr : ratSqrtExact (sumSq v) = some r) (hnz : r ≠ 0) :
    sumSq (normalizeVec v) = 1 ∧
    (∀ s mds, (addEmbeddings s [v] mds).2 = none →
      (addEmbeddings s [v] mds).1.index.xb = s.index.xb ++ [normalizeVec v]) := by
  constructor
  · have hsq : r * r = sumSq v := ratSqrtExact_sq hr
    unfold normalizeVec
    rw [hr]
    show sumSq (if r = 0 then v else v.map (fun x => qdiv x r)) = 1
    rw [if_neg hnz]
    have : sumSq (v.map (fun x => qdiv x r)) = sumSq v * (r⁻¹ * r⁻¹) := by
      unfold sumSq
      rw [qsum_eq, qsum_eq, List.map_map]
      have hfun : ((fun x : ℚ => qmul x x) ∘ fun x : ℚ => qdiv x r) =
          fun x : ℚ => (qmul x x) * (r⁻¹ * r⁻¹) := by
        funext x
        simp only [Function.comp]
        rw [qmul_eq, qmul_eq, qdiv_eq]
        field_simp
      rw [hfun, List.sum_map_mul_right]
    rw [this, ← hsq]
    field_simp
  · intro s mds hnone
    unfold addEmbeddings at *
    by_cases hc : ([v] : List Vec).length ≠ mds.length
    · rw [if_pos hc] at hnone
      simp at hnone
    · rw [if_neg hc] at hnone ⊢
      rw [if_neg (by simp)] at hnone ⊢
      cases hadd : s.index.addVecs (normalizeEmbeddings [v]) with
      | none =>
        rw [hadd] at hnone
        simp at hnone
      | some idx =>
        have hidx : idx.xb = s.index.xb ++ [normalizeVec v] := by
          unfold FaissIndexFlatIP.addVecs at hadd
          by_cases hlen :
              (normalizeEmbeddings [v]).all (fun w => w.length = s.index.d) = true
          · rw [if_pos hlen] at hadd
            cases hadd
            rfl
          · rw [if_neg hlen] at hadd
            cases hadd
        have hs2 := (storeMappings_index mds { s with index := idx }
          s.next_faiss_id).1
        show (storeMappings { s with index := idx } s.next_faiss_id mds).index.xb =
          s.index.xb ++ [normalizeVec v]
        rw [hs2]
        exact hidx

/-- Witness for the amended C8 at `v = [3,4]`, whose norm is `5`. -/
theorem normalize_unit_norm_witness :
    ratSqrtExact (sumSq [(3 : ℚ), 4]) = some 5 ∧
    (5 : ℚ) ≠ 0 ∧
    sumSq (normalizeVec [(3 : ℚ), 4]) = 1 :=
  ⟨by decide, by decide,
   (normalize_unit_norm [(3 : ℚ), 4] 5 (by decide) (by decide)).1⟩

/-! ### C4: the similarity threshold boundary -/

/-- C4 counterexample: in `sC4` the record `"b"` is non-deleted and its
similarity against the query `[1,0]` is exactly the threshold `3/5`, yet
`search(q, k=1, 3/5)` does not include it: the better-ranked `"a"` fills the
`k`-limit first and the loop breaks.  Equality at the threshold does not by
itself guarantee inclusion. -/
theorem search_boundary_counterexample :
    dotp (normalizeVec [3, 4]) (normalizeVec [1, 0]) = mkRat 3 5 ∧
    dictGet sC4.metadata 1 = some { item_id := "b" } ∧
    (∀ r ∈ search sC4 [1, 0] 1 (mkRat 3 5), r.item_id ≠ "b") := by
  decide

/-! ### C2 and C3 counterexamples: duplicate active ids -/

/-- C2 counterexample: in the reachable state `sDup` (the same `item_id`
added twice), `removeEmbedding "a"` marks only the currently-mapped slot as
deleted; the stale first slot remains active and `search` still returns a
result carrying `"a"`. -/
theorem removeEmbedding_counterexample :
    ∃ r ∈ search (removeEmbedding sDup "a") [1, 0] 5 (mkRat 1 2),
      r.item_id = "a" := by
  decide

/-- C3 counterexample: `sDup` is reachable by two `add_embeddings` calls and
holds two non-deleted records sharing `item_id = "a"` — the uniqueness
invariant fails for unrestricted `add_embeddings` sequences. -/
theorem uniqueActive_counterexample :
    (0, ({ item_id := "a" } : EmbMeta)) ∈ sDup.metadata ∧
    (1, ({ item_id := "a" } : EmbMeta)) ∈ sDup.metadata ∧
    ¬ uniqueActive sDup := by
  decide

/-! ### Dictionary lemmas -/

theorem dictGet_cons {κ β : Type} [DecidableEq κ] (p : κ × β) (t : List (κ × β))
    (k : κ) : dictGet (p :: t) k = if k = p.1 then some p.2 else dictGet t k := by
  cases p
  rfl

theorem dictDel_subset {κ β : Type} [DecidableEq κ] :
    ∀ (l : List (κ × β)) (k : κ) (p : κ × β), p ∈ dictDel l k → p ∈ l := by
  intro l
  induction l with
  | nil => intro k p h; cases h
  | cons q t ih =>
    intro k p h
    unfold dictDel at h
    by_cases hk : k = q.1
    · rw [if_pos hk] at h
      exact List.mem_cons_of_mem _ h
    · rw [if_neg hk] at h
      rcases List.mem_cons.mp h with he | hm
      · rw [he]
        exact List.mem_cons_self _ _
      · exact List.mem_cons_of_mem _ (ih k p hm)

theorem dictGet_dictSet_self {κ β : Type} [DecidableEq κ]
    (l : List (κ × β)) (k : κ) (v : β) : dictGet (dictSet l k v) k = some v := by
  induction l with
  | nil => simp [dictSet, dictGet]
  | cons p t ih =>
    unfold dictSet
    by_cases h : k = p.1
    · rw [if_pos h]
      simp [dictGet]
    · rw [if_neg h]
      unfold dictGet
      rw [if_neg h]
      exact ih

theorem dictGet_dictSet_ne {κ β : Type} [DecidableEq κ]
    (l : List (κ × β)) (k k2 : κ) (v : β) (h : k2 ≠ k) :
    dictGet (dictSet l k v) k2 = dictGet l k2 := by
  induction l with
  | nil => simp [dictSet, dictGet, if_neg h]
  | cons p t ih =>
    unfold dictSet
    by_cases hk : k = p.1
    · rw [if_pos hk]
      rw [dictGet_cons, dictGet_cons]
      rw [if_neg h, if_neg (hk ▸ h)]
    · rw [if_neg hk]
      unfold dictGet
      by_cases h2 : k2 = p.1
      · rw [if_pos h2, if_pos h2]
      · rw [if_neg h2, if_neg h2]
        exact ih

theorem dictGet_dictDel_self {κ β : Type} [DecidableEq κ] :
    ∀ (l : List (κ × β)) (k : κ), keysNodup l → dictGet (dictDel l k) k = none := by
  intro l
  induction l with
  | nil => intro k _; rfl
  | cons p t ih =>
    intro k hnd
    have hnd2 : keysNodup t := by
      unfold keysNodup at hnd ⊢
      exact (List.nodup_cons.mp hnd).2
    unfold dictDel
    by_cases h : k = p.1
    · rw [if_pos h]
      -- k = p.1 and p.1 is not a key of t
      have hnk : p.1 ∉ t.map Prod.fst := (List.nodup_cons.mp hnd).1
      rw [h]
      clear ih hnd h
      induction t with
      | nil => rfl
      | cons q u ih2 =>
        unfold dictGet
        rw [if_neg (by
          intro he
          exact hnk (by rw [he]; exact List.mem_cons_self _ _))]
        exact ih2 (by
          unfold keysNodup at hnd2 ⊢
          exact (List.nodup_cons.mp hnd2).2)
          (fun hm => hnk (List.mem_cons_of_mem _ hm))
    · rw [if_neg h]
      unfold dictGet
      rw [if_neg h]
      exact ih k hnd2

theorem dictGet_dictDel_ne {κ β : Type} [DecidableEq κ]
    (l : List (κ × β)) (k k2 : κ) (h : k2 ≠ k) :
    dictGet (dictDel l k) k2 = dictGet l k2 := by
  induction l with
  | nil => rfl
  | cons p t ih =>
    unfold dictDel
    by_cases hk : k = p.1
    · rw [if_pos hk]
      rw [dictGet_cons, if_neg (hk ▸ h)]
    · rw [if_neg hk]
      rw [dictGet_cons, dictGet_cons]
      by_cases h2 : k2 = p.1
      · rw [if_pos h2, if_pos h2]
      · rw [if_neg h2, if_neg h2]
        exact ih

theorem dictGet_mem {κ β : Type} [DecidableEq κ] :
    ∀ (l : List (κ × β)) (k : κ) (v : β), dictGet l k = some v → (k, v) ∈ l := by
  intro l
  induction l with
  | nil => intro k v h; cases h
  | cons p t ih =>
    intro k v h
    rw [dictGet_cons] at h
    by_cases hk : k = p.1
    · rw [if_pos hk] at h
      cases h
      rw [hk, Prod.mk.eta]
      exact List.mem_cons_self _ _
    · rw [if_neg hk] at h
      exact List.mem_cons_of_mem _ (ih k v h)

theorem mem_dictGet {κ β : Type} [DecidableEq κ] :
    ∀ (l : List (κ × β)) (k : κ) (v : β), keysNodup l → (k, v) ∈ l →
      dictGet l k = some v := by
  intro l
  induction l with
  | nil => intro k v _ h; cases h
  | cons p t ih =>
    intro k v hnd hm
    unfold dictGet
    rcases List.mem_cons.mp hm with he | hm2
    · rw [← he]
      rw [if_pos rfl]
    · by_cases hk : k = p.1
      · exfalso
        have : p.1 ∈ t.map Prod.fst := by
          rw [← hk]
          exact List.mem_map_of_mem Prod.fst hm2
        exact (List.nodup_cons.mp hnd).1 this
      · rw [if_neg hk]
        exact ih k v (by
          unfold keysNodup at hnd ⊢
          exact (List.nodup_cons.mp hnd).2) hm2

theorem mem_dictSet {κ β : Type} [DecidableEq κ] :
    ∀ (l : List (κ × β)) (k : κ) (v : β) (p : κ × β),
      p ∈ dictSet l k v → p = (k, v) ∨ p ∈ l := by
  intro l
  induction l with
  | nil =>
    intro k v p h
    simp [dictSet] at h
    left
    exact h
  | cons q t ih =>
    intro k v p h
    unfold dictSet at h
    by_cases hk : k = q.1
    · rw [if_pos hk] at h
      rcases List.mem_cons.mp h with he | hm
      · left; exact he
      · right; exact List.mem_cons_of_mem _ hm
    · rw [if_neg hk] at h
      rcases List.mem_cons.mp h with he | hm
      · right; rw [he]; exact List.mem_cons_self _ _
      · rcases ih k v p hm with h2 | h2
        · left; exact h2
        · right; exact List.mem_cons_of_mem _ h2

theorem keysNodup_dictSet {κ β : Type} [DecidableEq κ] :
    ∀ (l : List (κ × β)) (k : κ) (v : β), keysNodup l → keysNodup (dictSet l k v) := by
  intro l
  induction l with
  | nil =>
    intro k v _
    unfold dictSet keysNodup
    simp
  | cons p t ih =>
    intro k v hnd
    unfold keysNodup at hnd
    have hn1 : p.1 ∉ t.map Prod.fst := (List.nodup_cons.mp hnd).1
    have hn2 : (t.map Prod.fst).Nodup := (List.nodup_cons.mp hnd).2
    unfold dictSet
    by_cases hk : k = p.1
    · rw [if_pos hk]
      unfold keysNodup
      simp only [List.map_cons]
      exact List.nodup_cons.mpr ⟨by rw [hk]; exact hn1, hn2⟩
    · rw [if_neg hk]
      unfold keysNodup
      simp only [List.map_cons]
      refine List.nodup_cons.mpr ⟨?_, ih k v hn2⟩
      intro hmem
      rcases List.mem_map.mp hmem with ⟨q, hq, hq1⟩
      rcases mem_dictSet t k v q hq with he | hm
      · rw [he] at hq1
        exact hk (by rw [← hq1])
      · exact hn1 (by rw [← hq1]; exact List.mem_map_of_mem Prod.fst hm)

theorem keysNodup_dictDel {κ β : Type} [DecidableEq κ] :
    ∀ (l : List (κ × β)) (k : κ), keysNodup l → keysNodup (dictDel l k) := by
  intro l
  induction l with
  | nil => intro k h; exact h
  | cons p t ih =>
    intro k hnd
    unfold keysNodup at hnd
    have hn1 : p.1 ∉ t.map Prod.fst := (List.nodup_cons.mp hnd).1
    have hn2 : (t.map Prod.fst).Nodup := (List.nodup_cons.mp hnd).2
    unfold dictDel
    by_cases hk : k = p.1
    · rw [if_pos hk]
      exact hn2
    · rw [if_neg hk]
      unfold keysNodup
      simp only [List.map_cons]
      refine List.nodup_cons.mpr ⟨?_, ih k hn2⟩
      intro hmem
      rcases List.mem_map.mp hmem with ⟨q, hq, hq1⟩
      have hsub : q ∈ t := dictDel_subset t k q hq
      exact hn1 (by rw [← hq1]; exact List.mem_map_of_mem Prod.fst hsub)

/-! ### Provenance of search results -/

/-- Every result produced by the loop either was in the accumulator or stems
from a present, non-deleted metadata record whose similarity meets the
threshold. -/
theorem searchLoop_mem_src (metadata : List (Nat × EmbMeta)) (minS : ℚ) (k : Nat) :
    ∀ (cands : List (ℚ × Nat)) (acc : List SearchResult) (r : SearchResult),
      r ∈ searchLoop metadata minS k cands acc →
      r ∈ acc ∨ ∃ sim fid md, dictGet metadata fid = some md ∧
        md.deleted = false ∧ minS ≤ sim ∧ r = md.toResult sim := by
  intro cands
  induction cands with
  | nil =>
    intro acc r h
    left
    exact h
  | cons c rest ih =>
    obtain ⟨sim, fid⟩ := c
    intro acc r h
    unfold searchLoop at h
    by_cases hlt : sim < minS
    · rw [if_pos hlt] at h
      exact ih acc r h
    · rw [if_neg hlt] at h
      cases hget : dictGet metadata fid with
      | some md =>
        simp only [hget] at h
        by_cases hdel : md.deleted = true
        · rw [if_pos hdel] at h
          exact ih acc r h
        · rw [if_neg hdel] at h
          have hdel2 : md.deleted = false := by
            revert hdel
            cases md.deleted <;> simp
          by_cases hbrk : k ≤ (acc ++ [md.toResult sim]).length
          · rw [if_pos hbrk] at h
            rcases List.mem_append.mp h with hm | hm
            · left
              exact hm
            · right
              exact ⟨sim, fid, md, hget, hdel2, not_lt.mp hlt,
                List.mem_singleton.mp hm⟩
          · rw [if_neg hbrk] at h
            rcases ih (acc ++ [md.toResult sim]) r h with hm | hm
            · rcases List.mem_append.mp hm with hm2 | hm2
              · left
                exact hm2
              · right
                exact ⟨sim, fid, md, hget, hdel2, not_lt.mp hlt,
                  List.mem_singleton.mp hm2⟩
            · right
              exact hm
      | none =>
        simp only [hget] at h
        by_cases hbrk : k ≤ acc.length
        · rw [if_pos hbrk] at h
          left
          exact h
        · rw [if_neg hbrk] at h
          exact ih acc r h

/-! ### `remove_embedding` characterizations -/

theorem removeEmbedding_absent (s : VectorStore) (item_id : String)
    (h1 : dictGet s.id_to_faiss item_id = none) :
    removeEmbedding s item_id = s := by
  unfold removeEmbedding
  simp only [h1]

theorem removeEmbedding_proj_some (s : VectorStore) (item_id : String)
    (fid0 : Nat) (md0 : EmbMeta)
    (h1 : dictGet s.id_to_faiss item_id = some fid0)
    (h2 : dictGet s.metadata fid0 = some md0) :
    (removeEmbedding s item_id).metadata =
      dictSet s.metadata fid0 { md0 with deleted := true } ∧
    (removeEmbedding s item_id).id_to_faiss = dictDel s.id_to_faiss item_id := by
  unfold removeEmbedding
  simp only [h1, h2]
  exact ⟨rfl, rfl⟩

theorem removeEmbedding_proj_none (s : VectorStore) (item_id : String)
    (fid0 : Nat)
    (h1 : dictGet s.id_to_faiss item_id = some fid0)
    (h2 : dictGet s.metadata fid0 = none) :
    (removeEmbedding s item_id).metadata = s.metadata ∧
    (removeEmbedding s item_id).id_to_faiss = dictDel s.id_to_faiss item_id := by
  unfold removeEmbedding
  simp only [h1, h2]
  exact ⟨rfl, rfl⟩

theorem removeEmbedding_index (s : VectorStore) (item_id : String) :
    (removeEmbedding s item_id).index = s.index ∧
    (removeEmbedding s item_id).dimension = s.dimension ∧
    (removeEmbedding s item_id).next_faiss_id = s.next_faiss_id := by
  unfold removeEmbedding
  split
  · exact ⟨rfl, rfl, rfl⟩
  · split
    · exact ⟨rfl, rfl, rfl⟩
    · exact ⟨rfl, rfl, rfl⟩

/-! ### C2 (amended): soft-delete exclusion under the uniqueness invariant -/

/-- C2 (amended): in any store state satisfying the uniqueness invariant of
the data model (`uniqueActive`, violated only by duplicate-id adds, cf. C3)
whose id mapping has distinct keys, for every `itemId` present in the store,
after `remove_embedding(itemId)`: `search` never returns a result carrying
that `itemId` for any query, `get_embedding_metadata(itemId)` returns `None`,
and `get_stats` reports the same total index size as before the removal. -/
theorem removeEmbedding_spec (s : VectorStore) (item_id : String)
    (hnodup : keysNodup s.id_to_faiss) (hua : uniqueActive s)
    (hpres : (dictGet s.id_to_faiss item_id).isSome) :
    (∀ q k m, ∀ r ∈ search (removeEmbedding s item_id) q k m,
      r.item_id ≠ item_id) ∧
    getEmbeddingMetadata (removeEmbedding s item_id) item_id = none ∧
    (getStats (removeEmbedding s item_id)).total_embeddings =
      (getStats s).total_embeddings := by
  obtain ⟨fid0, h1⟩ := Option.isSome_iff_exists.mp hpres
  refine ⟨?_, ?_, ?_⟩
  · intro q k m r hr heq
    unfold search at hr
    by_cases h0 : (removeEmbedding s item_id).index.ntotal = 0
    · rw [if_pos h0] at hr
      simp at hr
    · rw [if_neg h0] at hr
      rcases searchLoop_mem_src _ _ _ _ _ _ hr with hacc |
        ⟨sim, fid, md, hget, hdel, _, hres⟩
      · simp at hacc
      · have hid : md.item_id = item_id := by
          rw [hres] at heq
          exact heq
        cases h2 : dictGet s.metadata fid0 with
        | some md0 =>
          rw [(removeEmbedding_proj_some s item_id fid0 md0 h1 h2).1] at hget
          by_cases hfid : fid = fid0
          · rw [hfid, dictGet_dictSet_self] at hget
            cases hget
            simp at hdel
          · rw [dictGet_dictSet_ne _ _ _ _ hfid] at hget
            have hmem : (fid, md) ∈ s.metadata := dictGet_mem _ _ _ hget
            have := hua (fid, md) hmem hdel
            rw [hid, h1] at this
            cases this
            exact hfid rfl
        | none =>
          rw [(removeEmbedding_proj_none s item_id fid0 h1 h2).1] at hget
          have hmem : (fid, md) ∈ s.metadata := dictGet_mem _ _ _ hget
          have := hua (fid, md) hmem hdel
          rw [hid, h1] at this
          cases this
          rw [hget] at h2
          cases h2
  · unfold getEmbeddingMetadata
    cases h2 : dictGet s.metadata fid0 with
    | some md0 =>
      rw [(removeEmbedding_proj_some s item_id fid0 md0 h1 h2).2]
      rw [dictGet_dictDel_self _ _ hnodup]
    | none =>
      rw [(removeEmbedding_proj_none s item_id fid0 h1 h2).2]
      rw [dictGet_dictDel_self _ _ hnodup]
  · show (removeEmbedding s item_id).index.ntotal = s.index.ntotal
    rw [(removeEmbedding_index s item_id).1]

/-! ### Invariant preservation machinery (for C3) -/

theorem keys_unique {κ β : Type} [DecidableEq κ] (l : List (κ × β))
    (hnd : keysNodup l) (k : κ) (a b : β) (ha : (k, a) ∈ l) (hb : (k, b) ∈ l) :
    a = b := by
  have h1 := mem_dictGet l k a hnd ha
  have h2 := mem_dictGet l k b hnd hb
  rw [h1] at h2
  cases h2
  rfl

theorem storeMappings_next :
    ∀ (mds : List EmbMeta) (s : VectorStore) (fid : Nat),
      (storeMappings s fid mds).next_faiss_id = s.next_faiss_id := by
  intro mds
  induction mds with
  | nil => intro s fid; rfl
  | cons md rest ih => intro s fid; exact ih _ _

theorem addVecs_some {idx idx2 : FaissIndexFlatIP} {vs : List Vec}
    (h : idx.addVecs vs = some idx2) :
    idx2.d = idx.d ∧ idx2.xb = idx.xb ++ vs := by
  unfold FaissIndexFlatIP.addVecs at h
  by_cases hall : vs.all (fun v => v.length = idx.d) = true
  · rw [if_pos hall] at h
    cases h
    exact ⟨rfl, rfl⟩
  · rw [if_neg hall] at h
    cases h

/-- The mapping loop preserves distinct keys, slot bounds and the uniqueness
invariant, provided none of the incoming item ids is currently active and the
batch ids are pairwise distinct. -/
theorem storeMappings_invariant :
    ∀ (mds : List EmbMeta) (s : VectorStore) (fid : Nat),
      keysNodup s.metadata → keysNodup s.id_to_faiss →
      (∀ p ∈ s.metadata, p.1 < fid) →
      uniqueActive s →
      (∀ md ∈ mds, ∀ p ∈ s.metadata, p.2.deleted = false →
        p.2.item_id ≠ md.item_id) →
      (mds.map (fun md => md.item_id)).Nodup →
      keysNodup (storeMappings s fid mds).metadata ∧
      keysNodup (storeMappings s fid mds).id_to_faiss ∧
      (∀ p ∈ (storeMappings s fid mds).metadata, p.1 < fid + mds.length) ∧
      uniqueActive (storeMappings s fid mds) := by
  intro mds
  induction mds with
  | nil =>
    intro s fid h1 h2 h3 h4 _ _
    exact ⟨h1, h2, by simpa using h3, h4⟩
  | cons md rest ih =>
    intro s fid h1 h2 h3 h4 h5 h6
    have hupd : storeMappings s fid (md :: rest) =
        storeMappings
          { s with
            metadata := dictSet s.metadata fid md
            id_to_faiss := dictSet s.id_to_faiss md.item_id fid
            faiss_to_id := dictSet s.faiss_to_id fid md.item_id }
          (fid + 1) rest := rfl
    rw [hupd]
    have hm1 : keysNodup (dictSet s.metadata fid md) := keysNodup_dictSet _ _ _ h1
    have hm2 : keysNodup (dictSet s.id_to_faiss md.item_id fid) :=
      keysNodup_dictSet _ _ _ h2
    have hbnd : ∀ p ∈ dictSet s.metadata fid md, p.1 < fid + 1 := by
      intro p hp
      rcases mem_dictSet _ _ _ _ hp with he | hm
      · rw [he]
        omega
      · have := h3 p hm
        omega
    have hu : uniqueActive
        { s with
          metadata := dictSet s.metadata fid md
          id_to_faiss := dictSet s.id_to_faiss md.item_id fid
          faiss_to_id := dictSet s.faiss_to_id fid md.item_id } := by
      intro p hp hact
      rcases mem_dictSet _ _ _ _ hp with he | hm
      · subst he
        exact dictGet_dictSet_self _ _ _
      · show dictGet (dictSet s.id_to_faiss md.item_id fid) p.2.item_id = some p.1
        rw [dictGet_dictSet_ne _ _ _ _ (h5 md (List.mem_cons_self _ _) p hm hact)]
        exact h4 p hm hact
    have hf : ∀ md2 ∈ rest, ∀ p ∈ dictSet s.metadata fid md,
        p.2.deleted = false → p.2.item_id ≠ md2.item_id := by
      intro md2 hmd2 p hp hact
      rcases mem_dictSet _ _ _ _ hp with he | hm
      · subst he
        intro heq
        have heq2 : md.item_id = md2.item_id := heq
        refine (List.nodup_cons.mp h6).1 ?_
        show md.item_id ∈ List.map (fun md => md.item_id) rest
        rw [heq2]
        exact List.mem_map_of_mem _ hmd2
      · exact h5 md2 (List.mem_cons_of_mem _ hmd2) p hm hact
    have h6b : (rest.map (fun md => md.item_id)).Nodup := (List.nodup_cons.mp h6).2
    obtain ⟨r1, r2, r3, r4⟩ := ih _ (fid + 1) hm1 hm2 hbnd hu hf h6b
    refine ⟨r1, r2, ?_, r4⟩
    intro p hp
    have := r3 p hp
    simp only [List.length_cons]
    omega

/-- If `get_embedding_metadata` reports an id absent, no active record holds
that id (in stores satisfying the invariant with distinct metadata keys). -/
theorem fresh_of_getNone (s : VectorStore) (hmeta : keysNodup s.metadata)
    (hua : uniqueActive s) (item_id : String)
    (hnone : getEmbeddingMetadata s item_id = none) :
    ∀ p ∈ s.metadata, p.2.deleted = false → p.2.item_id ≠ item_id := by
  intro p hp hact heq
  have hmap := hua p hp hact
  rw [heq] at hmap
  have hget : dictGet s.metadata p.1 = some p.2 :=
    mem_dictGet _ _ _ hmeta (by rw [Prod.mk.eta]; exact hp)
  unfold getEmbeddingMetadata at hnone
  simp [hmap, hget, hact] at hnone

/-- The successful path of `add_embeddings`, as an equation. -/
theorem addEmbeddings_success_eq (s : VectorStore) (vs : List Vec)
    (mds : List EmbMeta) (idx : FaissIndexFlatIP)
    (hc : vs.length = mds.length) (hz : vs ≠ [])
    (hadd : s.index.addVecs (normalizeEmbeddings vs) = some idx) :
    addEmbeddings s vs mds =
      (saveIndex
        { storeMappings { s with index := idx } s.next_faiss_id mds with
          next_faiss_id :=
            (storeMappings { s with index := idx } s.next_faiss_id mds).next_faiss_id
              + vs.length }, none) := by
  unfold addEmbeddings
  rw [if_neg (not_not_intro hc),
    if_neg (fun h0 => hz (List.length_eq_zero.mp h0))]
  simp only [hadd]

/-- `remove_embedding` preserves well-formedness and the uniqueness
invariant. -/
theorem removeEmbedding_invariant (s : VectorStore) (id : String)
    (hwf : WF s) (hua : uniqueActive s) :
    WF (removeEmbedding s id) ∧ uniqueActive (removeEmbedding s id) := by
  obtain ⟨hd, hn, hb, hm1, hm2⟩ := hwf
  obtain ⟨hidx, hdim, hnext⟩ := removeEmbedding_index s id
  cases h1 : dictGet s.id_to_faiss id with
  | none =>
    rw [removeEmbedding_absent s id h1]
    exact ⟨⟨hd, hn, hb, hm1, hm2⟩, hua⟩
  | some fid0 =>
    cases h2 : dictGet s.metadata fid0 with
    | some md0 =>
      obtain ⟨hmeta, hmap⟩ := removeEmbedding_proj_some s id fid0 md0 h1 h2
      constructor
      · refine ⟨by rw [hidx, hdim]; exact hd,
          by rw [hnext, hidx]; exact hn, ?_, ?_, ?_⟩
        · intro p hp
          rw [hmeta] at hp
          rw [hnext]
          rcases mem_dictSet _ _ _ _ hp with he | hm
          · rw [he]
            exact hb (fid0, md0) (dictGet_mem _ _ _ h2)
          · exact hb p hm
        · rw [hmeta]
          exact keysNodup_dictSet _ _ _ hm1
        · rw [hmap]
          exact keysNodup_dictDel _ _ hm2
      · intro p hp hact
        rw [hmeta] at hp
        rw [hmap]
        rcases mem_dictSet _ _ _ _ hp with he | hm
        · subst he
          simp at hact
        · by_cases hpi : p.2.item_id = id
          · exfalso
            have hmap0 := hua p hm hact
            rw [hpi, h1] at hmap0
            cases hmap0
            have hX : (p.1, { md0 with deleted := true }) ∈
                dictSet s.metadata p.1 { md0 with deleted := true } :=
              dictGet_mem _ _ _ (dictGet_dictSet_self _ _ _)
            have hp2 : (p.1, p.2) ∈ dictSet s.metadata p.1 { md0 with deleted := true } := by
              rw [Prod.mk.eta]
              exact hp
            have := keys_unique _ (keysNodup_dictSet _ _ _ hm1) p.1 _ _ hp2 hX
            rw [this] at hact
            simp at hact
          · rw [dictGet_dictDel_ne _ _ _ hpi]
            exact hua p hm hact
    | none =>
      obtain ⟨hmeta, hmap⟩ := removeEmbedding_proj_none s id fid0 h1 h2
      constructor
      · refine ⟨by rw [hidx, hdim]; exact hd,
          by rw [hnext, hidx]; exact hn, ?_, ?_, ?_⟩
        · intro p hp
          rw [hmeta] at hp
          rw [hnext]
          exact hb p hp
        · rw [hmeta]
          exact hm1
        · rw [hmap]
          exact keysNodup_dictDel _ _ hm2
      · intro p hp hact
        rw [hmeta] at hp
        rw [hmap]
        by_cases hpi : p.2.item_id = id
        · exfalso
          have hmap0 := hua p hp hact
          rw [hpi, h1] at hmap0
          cases hmap0
          have hget : dictGet s.metadata p.1 = some p.2 :=
            mem_dictGet _ _ _ hm1 (by rw [Prod.mk.eta]; exact hp)
          rw [hget] at h2
          cases h2
        · rw [dictGet_dictDel_ne _ _ _ hpi]
          exact hua p hp hact

/-- `add_embeddings` preserves well-formedness and the uniqueness invariant,
provided none of the added ids has an active record (exactly what
`RAGEngine.index_items` checks via `get_embedding_metadata` before adding)
and the batch ids are pairwise distinct. -/
theorem addEmbeddings_invariant (s : VectorStore) (vs : List Vec)
    (mds : List EmbMeta) (hwf : WF s) (hua : uniqueActive s)
    (hfresh : ∀ md ∈ mds, getEmbeddingMetadata s md.item_id = none)
    (hids : (mds.map (fun md => md.item_id)).Nodup) :
    WF (addEmbeddings s vs mds).1 ∧ uniqueActive (addEmbeddings s vs mds).1 := by
  obtain ⟨hd, hn, hb, hm1, hm2⟩ := hwf
  by_cases hc : vs.length = mds.length
  · by_cases hz : vs = []
    · have : addEmbeddings s vs mds = (s, none) := by
        unfold addEmbeddings
        rw [if_neg (not_not_intro hc), if_pos (by rw [hz]; rfl)]
      rw [this]
      exact ⟨⟨hd, hn, hb, hm1, hm2⟩, hua⟩
    · cases hadd : s.index.addVecs (normalizeEmbeddings vs) with
      | none =>
        have : addEmbeddings s vs mds = (s, some .dimMismatch) := by
          unfold addEmbeddings
          rw [if_neg (not_not_intro hc),
            if_neg (fun h0 => hz (List.length_eq_zero.mp h0))]
          simp only [hadd]
        rw [this]
        exact ⟨⟨hd, hn, hb, hm1, hm2⟩, hua⟩
      | some idx =>
        rw [addEmbeddings_success_eq s vs mds idx hc hz hadd]
        have hfr : ∀ md ∈ mds, ∀ p ∈ s.metadata, p.2.deleted = false →
            p.2.item_id ≠ md.item_id :=
          fun md hmd => fresh_of_getNone s hm1 hua md.item_id (hfresh md hmd)
        obtain ⟨r1, r2, r3, r4⟩ := storeMappings_invariant mds
          { s with index := idx } s.next_faiss_id hm1 hm2 hb hua hfr hids
        obtain ⟨hd2, hxb2⟩ := addVecs_some hadd
        have hnext2 := storeMappings_next mds { s with index := idx } s.next_faiss_id
        have hidx2 := (storeMappings_index mds { s with index := idx }
          s.next_faiss_id).1
        refine ⟨⟨?_, ?_, ?_, r1, r2⟩, r4⟩
        · show (storeMappings { s with index := idx } s.next_faiss_id mds).index.d =
            (storeMappings { s with index := idx } s.next_faiss_id mds).dimension
          rw [hidx2,
            (storeMappings_index mds { s with index := idx } s.next_faiss_id).2]
          show idx.d = s.dimension
          rw [hd2]
          exact hd
        · show (storeMappings { s with index := idx } s.next_faiss_id mds).next_faiss_id
              + vs.length =
            (storeMappings { s with index := idx } s.next_faiss_id mds).index.ntotal
          rw [hnext2, hidx2]
          show s.next_faiss_id + vs.length = idx.ntotal
          unfold FaissIndexFlatIP.ntotal at *
          rw [hxb2, List.length_append]
          unfold normalizeEmbeddings
          rw [List.length_map]
          omega
        · intro p hp
          have := r3 p hp
          show p.1 < (storeMappings { s with index := idx } s.next_faiss_id mds).next_faiss_id
            + vs.length
          rw [hnext2, hc]
          show p.1 < s.next_faiss_id + mds.length
          omega
  · have : addEmbeddings s vs mds = (s, some .countMismatch) := by
      unfold addEmbeddings
      rw [if_pos hc]
    rw [this]
    exact ⟨⟨hd, hn, hb, hm1, hm2⟩, hua⟩

/-- `update_embedding` preserves well-formedness and the uniqueness invariant
when the metadata carries the updated item's id (as `RAGEngine` calls it). -/
theorem updateEmbedding_invariant (s : VectorStore) (id : String) (v : Vec)
    (md : EmbMeta) (hwf : WF s) (hua : uniqueActive s) (hid : md.item_id = id) :
    WF (updateEmbedding s id v md).1 ∧ uniqueActive (updateEmbedding s id v md).1 := by
  unfold updateEmbedding
  by_cases hp : (dictGet s.id_to_faiss id).isSome
  · rw [if_pos hp]
    obtain ⟨hwf2, hua2⟩ := removeEmbedding_invariant s id hwf hua
    have hnone : getEmbeddingMetadata (removeEmbedding s id) id = none := by
      obtain ⟨fid0, h1⟩ := Option.isSome_iff_exists.mp hp
      unfold getEmbeddingMetadata
      cases h2 : dictGet s.metadata fid0 with
      | some md0 =>
        rw [(removeEmbedding_proj_some s id fid0 md0 h1 h2).2]
        rw [dictGet_dictDel_self _ _ hwf.2.2.2.2]
      | none =>
        rw [(removeEmbedding_proj_none s id fid0 h1 h2).2]
        rw [dictGet_dictDel_self _ _ hwf.2.2.2.2]
    exact addEmbeddings_invariant _ [v] [md] hwf2 hua2
      (by
        intro md2 hmd2
        rw [List.mem_singleton.mp hmd2, hid]
        exact hnone)
      (by simp)
  · rw [if_neg hp]
    have hnone : getEmbeddingMetadata s id = none := by
      unfold getEmbeddingMetadata
      cases hg : dictGet s.id_to_faiss id with
      | some fid0 =>
        rw [hg] at hp
        simp at hp
      | none => rfl
    exact addEmbeddings_invariant s [v] [md] hwf hua
      (by
        intro md2 hmd2
        rw [List.mem_singleton.mp hmd2, hid]
        exact hnone)
      (by simp)

/-- C3 (amended): in every store state satisfying the data-model invariant,
no two non-deleted records share an `itemId` and every non-deleted record's
`itemId` maps to exactly its own slot; and the invariant is preserved by
`removeEmbedding`, by `updateEmbedding` (called with the item's own id), and
by `addEmbeddings` whenever no added id has an active record — the
precondition `RAGEngine.index_items` establishes with its
`get_embedding_metadata` check — with pairwise-distinct batch ids.  It is NOT
preserved by unrestricted `addEmbeddings` calls (see the counterexample). -/
theorem invariant_preservation (s : VectorStore) (hwf : WF s)
    (hua : uniqueActive s) :
    (∀ p q2, p ∈ s.metadata → q2 ∈ s.metadata → p.2.deleted = false →
      q2.2.deleted = false → p.2.item_id = q2.2.item_id → p = q2) ∧
    (∀ vs mds, (∀ md ∈ mds, getEmbeddingMetadata s md.item_id = none) →
      (mds.map (fun md => md.item_id)).Nodup →
      WF (addEmbeddings s vs mds).1 ∧ uniqueActive (addEmbeddings s vs mds).1) ∧
    (∀ id v md, md.item_id = id →
      WF (updateEmbedding s id v md).1 ∧
      uniqueActive (updateEmbedding s id v md).1) ∧
    (∀ id, WF (removeEmbedding s id) ∧ uniqueActive (removeEmbedding s id)) := by
  refine ⟨?_, fun vs mds hf hi => addEmbeddings_invariant s vs mds hwf hua hf hi,
    fun id v md hid => updateEmbedding_invariant s id v md hwf hua hid,
    fun id => removeEmbedding_invariant s id hwf hua⟩
  intro p q2 hp hq hap haq hpq
  have h1 := hua p hp hap
  have h2 := hua q2 hq haq
  rw [hpq, h2] at h1
  have hkey : q2.1 = p.1 := by injection h1
  have hg1 : dictGet s.metadata p.1 = some p.2 :=
    mem_dictGet _ _ _ hwf.2.2.2.1 (by rw [Prod.mk.eta]; exact hp)
  have hg2 : dictGet s.metadata q2.1 = some q2.2 :=
    mem_dictGet _ _ _ hwf.2.2.2.1 (by rw [Prod.mk.eta]; exact hq)
  rw [hkey, hg1] at hg2
  have hval : p.2 = q2.2 := by injection hg2
  exact Prod.ext_iff.mpr ⟨hkey.symm, hval⟩

/-- Witness for the amended C3: the invariant holds of `sC4` and survives a
fresh add and a removal. -/
theorem invariant_preservation_witness :
    WF sC4 ∧ uniqueActive sC4 ∧
    (∀ md ∈ ([{ item_id := "c" }] : List EmbMeta),
      getEmbeddingMetadata sC4 md.item_id = none) ∧
    (WF (addEmbeddings sC4 [[0, 1]] [{ item_id := "c" }]).1 ∧
      uniqueActive (addEmbeddings sC4 [[0, 1]] [{ item_id := "c" }]).1) ∧
    (WF (removeEmbedding sC4 "a") ∧ uniqueActive (removeEmbedding sC4 "a")) :=
  ⟨by decide, by decide, by decide,
   (invariant_preservation sC4 (by decide) (by decide)).2.1 [[0, 1]]
     [{ item_id := "c" }] (by decide) (by decide),
   (invariant_preservation sC4 (by decide) (by decide)).2.2.2 "a"⟩

/-- Witness for the amended C2 on the concrete two-item store `sC4`. -/
theorem removeEmbedding_spec_witness :
    keysNodup sC4.id_to_faiss ∧
    uniqueActive sC4 ∧
    (dictGet sC4.id_to_faiss "a").isSome ∧
    getEmbeddingMetadata (removeEmbedding sC4 "a") "a" = none ∧
    (getStats (removeEmbedding sC4 "a")).total_embeddings =
      (getStats sC4).total_embeddings ∧
    (∀ q k m, ∀ r ∈ search (removeEmbedding sC4 "a") q k m, r.item_id ≠ "a") :=
  ⟨by decide, by decide, by decide,
   (removeEmbedding_spec sC4 "a" (by decide) (by decide) (by decide)).2.1,
   (removeEmbedding_spec sC4 "a" (by decide) (by decide) (by decide)).2.2,
   (removeEmbedding_spec sC4 "a" (by decide) (by decide) (by decide)).1⟩

/-! ### C4 (amended): the similarity threshold boundary without crowding -/

theorem insertRanked_perm (x : ℚ × Nat) (l : List (ℚ × Nat)) :
    List.Perm (insertRanked x l) (x :: l) := by
  induction l with
  | nil => exact List.Perm.refl _
  | cons y ys ih =>
    unfold insertRanked
    by_cases h : x.1 > y.1 ∨ (x.1 = y.1 ∧ x.2 < y.2)
    · rw [if_pos h]
    · rw [if_neg h]
      exact ((ih.cons y).trans (List.Perm.swap x y ys))

theorem rankCandidates_perm (l : List (ℚ × Nat)) :
    List.Perm (rankCandidates l) l := by
  induction l with
  | nil => exact List.Perm.refl _
  | cons x xs ih =>
    show List.Perm (insertRanked x (rankCandidates xs)) (x :: xs)
    exact (insertRanked_perm x (rankCandidates xs)).trans (ih.cons x)

theorem searchLoop_acc_mem (metadata : List (Nat × EmbMeta)) (minS : ℚ) (k : Nat) :
    ∀ (cands : List (ℚ × Nat)) (acc : List SearchResult) (r : SearchResult),
      r ∈ acc → r ∈ searchLoop metadata minS k cands acc := by
  intro cands
  induction cands with
  | nil =>
    intro acc r h
    exact h
  | cons c rest ih =>
    obtain ⟨sim, fid⟩ := c
    intro acc r h
    unfold searchLoop
    by_cases hlt : sim < minS
    · rw [if_pos hlt]
      exact ih acc r h
    · rw [if_neg hlt]
      cases hget : dictGet metadata fid with
      | some md =>
        simp only []
        by_cases hdel : md.deleted = true
        · rw [if_pos hdel]
          exact ih acc r h
        · rw [if_neg hdel]
          by_cases hbrk : k ≤ (acc ++ [md.toResult sim]).length
          · rw [if_pos hbrk]
            exact List.mem_append_left _ h
          · rw [if_neg hbrk]
            exact ih _ r (List.mem_append_left _ h)
      | none =>
        simp only []
        by_cases hbrk : k ≤ acc.length
        · rw [if_pos hbrk]
          exact h
        · rw [if_neg hbrk]
          exact ih acc r h

theorem appendCount_cons (metadata : List (Nat × EmbMeta)) (minS : ℚ)
    (c : ℚ × Nat) (rest : List (ℚ × Nat)) :
    appendCount metadata minS (c :: rest) =
      (if appendable metadata minS c then 1 else 0) +
        appendCount metadata minS rest := by
  unfold appendCount
  rw [List.filter_cons]
  by_cases h : appendable metadata minS c = true
  · rw [if_pos h, if_pos h]
    simp [Nat.add_comm]
  · rw [if_neg h, if_neg h]
    simp

theorem appendCount_pos (metadata : List (Nat × EmbMeta)) (minS : ℚ)
    (rest : List (ℚ × Nat)) (c : ℚ × Nat) (hc : c ∈ rest)
    (ha : appendable metadata minS c = true) :
    1 ≤ appendCount metadata minS rest := by
  unfold appendCount
  have : c ∈ rest.filter (appendable metadata minS) :=
    List.mem_filter.mpr ⟨hc, ha⟩
  exact List.length_pos.mpr (List.ne_nil_of_mem this)

/-- Completeness of the result loop: while the break can never fire early
(the accumulated plus remaining appendable candidates fit within `k`), every
appendable candidate lands in the results. -/
theorem searchLoop_complete (metadata : List (Nat × EmbMeta)) (minS : ℚ) (k : Nat) :
    ∀ (cands : List (ℚ × Nat)) (acc : List SearchResult),
      acc.length + appendCount metadata minS cands ≤ k →
      ∀ sim fid md, (sim, fid) ∈ cands → dictGet metadata fid = some md →
        md.deleted = false → minS ≤ sim →
        md.toResult sim ∈ searchLoop metadata minS k cands acc := by
  intro cands
  induction cands with
  | nil =>
    intro acc _ sim fid md hmem
    cases hmem
  | cons c rest ih =>
    obtain ⟨sim0, fid0⟩ := c
    intro acc hcnt sim fid md hmem hget hdel hth
    have happ : appendable metadata minS (sim, fid) = true := by
      unfold appendable
      rw [hget]
      simp [hth, hdel]
    unfold searchLoop
    by_cases hlt : sim0 < minS
    · rw [if_pos hlt]
      have hne : (sim, fid) ≠ (sim0, fid0) := by
        intro he
        cases he
        exact hlt.not_le hth
      have hmem2 : (sim, fid) ∈ rest := by
        rcases List.mem_cons.mp hmem with he | hm
        · exact absurd he hne
        · exact hm
      have hcnt2 : acc.length + appendCount metadata minS rest ≤ k := by
        rw [appendCount_cons] at hcnt
        omega
      exact ih acc hcnt2 sim fid md hmem2 hget hdel hth
    · rw [if_neg hlt]
      cases hget0 : dictGet metadata fid0 with
      | some md0 =>
        simp only []
        by_cases hdel0 : md0.deleted = true
        · rw [if_pos hdel0]
          have hne : (sim, fid) ≠ (sim0, fid0) := by
            intro he
            cases he
            rw [hget] at hget0
            cases hget0
            rw [hdel] at hdel0
            cases hdel0
          have hmem2 : (sim, fid) ∈ rest := by
            rcases List.mem_cons.mp hmem with he | hm
            · exact absurd he hne
            · exact hm
          have hcnt2 : acc.length + appendCount metadata minS rest ≤ k := by
            rw [appendCount_cons] at hcnt
            omega
          exact ih acc hcnt2 sim fid md hmem2 hget hdel hth
        · rw [if_neg hdel0]
          have happ0 : appendable metadata minS (sim0, fid0) = true := by
            unfold appendable
            rw [hget0]
            simp [not_lt.mp hlt, hdel0]
          have hcount0 : appendCount metadata minS ((sim0, fid0) :: rest) =
              1 + appendCount metadata minS rest := by
            rw [appendCount_cons, if_pos happ0]
          by_cases hbrk : k ≤ (acc ++ [md0.toResult sim0]).length
          · rw [if_pos hbrk]
            rw [List.length_append, List.length_singleton] at hbrk
            rw [hcount0] at hcnt
            have hz : appendCount metadata minS rest = 0 := by omega
            rcases List.mem_cons.mp hmem with he | hm
            · cases he
              rw [hget] at hget0
              cases hget0
              exact List.mem_append_right _ (List.mem_singleton.mpr rfl)
            · exfalso
              have := appendCount_pos metadata minS rest (sim, fid) hm happ
              omega
          · rw [if_neg hbrk]
            rcases List.mem_cons.mp hmem with he | hm
            · cases he
              rw [hget] at hget0
              cases hget0
              exact searchLoop_acc_mem metadata minS k rest _ _
                (List.mem_append_right _ (List.mem_singleton.mpr rfl))
            · have hcnt2 : (acc ++ [md0.toResult sim0]).length +
                  appendCount metadata minS rest ≤ k := by
                rw [List.length_append, List.length_singleton]
                rw [hcount0] at hcnt
                omega
              exact ih _ hcnt2 sim fid md hm hget hdel hth
      | none =>
        simp only []
        have hne : (sim, fid) ≠ (sim0, fid0) := by
          intro he
          cases he
          rw [hget] at hget0
          cases hget0
        have hmem2 : (sim, fid) ∈ rest := by
          rcases List.mem_cons.mp hmem with he | hm
          · exact absurd he hne
          · exact hm
        have hcnt2 : acc.length + appendCount metadata minS rest ≤ k := by
          rw [appendCount_cons] at hcnt
          omega
        by_cases hbrk : k ≤ acc.length
        · exfalso
          have := appendCount_pos metadata minS rest (sim, fid) hmem2 happ
          omega
        · rw [if_neg hbrk]
          exact ih acc hcnt2 sim fid md hmem2 hget hdel hth

/-- C4 (amended): every result of `search` has similarity at or above
`minSimilarity` (strictly-below candidates are excluded, never clamped), and
— provided the store holds at most `k` rows, so that neither the
`min(2k, ntotal)` window nor the `k`-results break can crowd anything out — a
non-deleted candidate whose similarity is exactly equal to (or above)
`minSimilarity` is included in the results. -/
theorem search_threshold_spec (s : VectorStore) (q : Vec) (k : Nat) (minS : ℚ) :
    (∀ r ∈ search s q k minS, minS ≤ r.similarity) ∧
    (s.index.ntotal ≤ k →
      ∀ sim fid, (sim, fid) ∈ candList s q → ∀ md,
        dictGet s.metadata fid = some md → md.deleted = false → minS ≤ sim →
        md.toResult sim ∈ search s q k minS) := by
  constructor
  · intro r hr
    unfold search at hr
    by_cases h0 : s.index.ntotal = 0
    · rw [if_pos h0] at hr
      simp at hr
    · rw [if_neg h0] at hr
      rcases searchLoop_mem_src _ _ _ _ _ _ hr with hacc |
        ⟨sim, fid, md, _, _, hth, hres⟩
      · simp at hacc
      · rw [hres]
        exact hth
  · intro hk sim fid hmem md hget hdel hth
    have h0 : s.index.ntotal ≠ 0 := by
      intro h0
      unfold candList at hmem
      unfold FaissIndexFlatIP.ntotal at h0
      rw [List.length_eq_zero.mp h0] at hmem
      simp at hmem
    unfold search
    rw [if_neg h0]
    unfold FaissIndexFlatIP.searchQ
    have hmin : min (k * 2) s.index.ntotal = s.index.ntotal :=
      min_eq_right (le_trans hk (by omega))
    rw [hmin]
    have hlen2 : (candList s q).length = s.index.ntotal := by
      unfold candList FaissIndexFlatIP.ntotal
      rw [List.length_map, List.enum_length]
    have hlen : (rankCandidates (candList s q)).length = s.index.ntotal := by
      rw [(rankCandidates_perm (candList s q)).length_eq]
      exact hlen2
    have htake : (rankCandidates (candList s q)).take s.index.ntotal =
        rankCandidates (candList s q) := by
      rw [← hlen]
      exact List.take_length _
    show md.toResult sim ∈ searchLoop s.metadata minS k
      ((rankCandidates (candList s q)).take s.index.ntotal) []
    rw [htake]
    apply searchLoop_complete
    · have hle : appendCount s.metadata minS (rankCandidates (candList s q)) ≤
          (rankCandidates (candList s q)).length := by
        unfold appendCount
        exact List.length_filter_le _ _
      simp only [List.length_nil]
      omega
    · exact (rankCandidates_perm (candList s q)).mem_iff.mpr hmem
    · exact hget
    · exact hdel
    · exact hth

/-- Witness for the amended C4: with `k = 2` covering both rows of `sC4`, the
record `"b"` at exactly the threshold is included. -/
theorem search_threshold_spec_witness :
    sC4.index.ntotal ≤ 2 ∧
    ((mkRat 3 5, 1) ∈ candList sC4 [1, 0]) ∧
    dictGet sC4.metadata 1 = some { item_id := "b" } ∧
    (({ item_id := "b" } : EmbMeta).toResult (mkRat 3 5) ∈
      search sC4 [1, 0] 2 (mkRat 3 5)) :=
  ⟨by decide, by decide, by decide,
   (search_threshold_spec sC4 [1, 0] 2 (mkRat 3 5)).2 (by decide) (mkRat 3 5) 1
     (by decide) { item_id := "b" } (by decide) (by decide) (by decide)⟩

end Sourcerer
